import Mathlib

/-!
Verification of the pen-convolution core of the rendering library.

The development shallowly embeds the knot-ring data model and the
brush engine (brush.c, knots.c, draw.c) in Lean.  Rings are modelled as
nonempty lists of knots read in successor order from the entry knot;
the C doubly linked cycle is recovered by cyclic indexing.  IEEE-754
doubles are idealised as exact ordered-field scalars: the ring and
convolution layer is parametric in the scalar field (so that concrete
witnesses can be computed over the rationals), while the numeric
kernels that need atan2 and square roots live over the real numbers.
-/

namespace Rendering

/-- Side descriptor tags, mirroring the knot_type enumeration of knots.h. -/
inductive KnotType where
  | kt_regular
  | kt_explicit
  | kt_given
  | kt_curl
  | kt_open
deriving DecidableEq

export KnotType (kt_regular kt_explicit kt_given kt_curl kt_open)

/-- A 2D point: a pair of scalars, mirroring point_t / knot_explicit. -/
structure Pt (α : Type) where
  x : α
  y : α
deriving DecidableEq

/-- A knot of a path or pen ring, mirroring knot_t of knots.h.  The core
reads the knot_info union only through its control-point member e, so a
side payload is modelled as a point. -/
structure Knot (α : Type) where
  x : α
  y : α
  left_info : Pt α
  right_info : Pt α
  left_type : KnotType
  right_type : KnotType
deriving DecidableEq

instance {α : Type} [Inhabited α] : Inhabited (Pt α) :=
  ⟨⟨default, default⟩⟩

instance {α : Type} [Inhabited α] : Inhabited (Knot α) :=
  ⟨⟨default, default, default, default, kt_regular, kt_regular⟩⟩

/-- The near-collinearity tolerance SMALL = 1e-12 of brush.c. -/
def SMALL (α : Type) [LinearOrderedField α] : α := 1 / 1000000000000

/-- clockwise of brush.c: decides whether (du,dv) is clockwise of
(dx,dy), declaring clockwise whenever the cross product is within the
SMALL tolerance of zero. -/
def clockwise {α : Type} [LinearOrderedField α] (dx dy du dv : α) : Bool :=
  let d := dx * dv - dy * du
  if |d| < SMALL α then true else decide (0 ≤ d)

/-- within_turn of brush.c. -/
def within_turn {α : Type} [LinearOrderedField α] (x1 y1 x2 y2 x3 y3 : α) : Bool :=
  if !(clockwise x1 y1 x2 y2) then clockwise x2 y2 x3 y3 && clockwise x3 y3 x1 y1
  else clockwise x1 y1 x3 y3 && clockwise x3 y3 x2 y2

/-- make_move of brush.c.  The C code writes the four points to the
trace slots i, i+1, i+2, i+3 (in the textual order i, i+3, i+1, i+2);
the net effect is appending start, control 1, control 2, end.  The
successor q of the second argument p is passed explicitly. -/
def make_move {α : Type} [LinearOrderedField α] (r p q : Knot α)
    (trace : List (Pt α)) : List (Pt α) :=
  trace ++ [⟨r.x + p.x, r.y + p.y⟩,
    ⟨r.x + p.right_info.x, r.y + p.right_info.y⟩,
    ⟨r.x + q.left_info.x, r.y + q.left_info.y⟩,
    ⟨r.x + q.x, r.y + q.y⟩]

/-- convolve of brush.c.  p is the path knot, q its ring successor,
r the pen knot, rp and rs the ring predecessor and successor of r;
the C code obtains q, rp, rs by dereferencing the cyclic links. -/
def convolve {α : Type} [LinearOrderedField α] (p q : Knot α)
    (x1 y1 x2 y2 x3 y3 : α) (r rp rs : Knot α)
    (trace : List (Pt α)) : List (Pt α) :=
  let x4 := r.x - rp.x
  let y4 := r.y - rp.y
  let x5 := rs.x - r.x
  let y5 := rs.y - r.y
  let trace1 := if within_turn x1 y1 x2 y2 x5 y5 then make_move p r rs trace else trace
  if within_turn x4 y4 x5 y5 x3 y3 then make_move r p q trace1 else trace1

/-- The 4-tuple the specification calls the forward emission: the path
segment p to q translated by the pen knot position r, written from the
words of the spec. -/
def path_segment_tuple {α : Type} [LinearOrderedField α] (p q r : Knot α) : List (Pt α) :=
  [⟨p.x + r.x, p.y + r.y⟩,
   ⟨p.right_info.x + r.x, p.right_info.y + r.y⟩,
   ⟨q.left_info.x + r.x, q.left_info.y + r.y⟩,
   ⟨q.x + r.x, q.y + r.y⟩]

/-- The 4-tuple the specification calls the reverse emission: the pen
edge r to s translated by the path knot position p, written from the
words of the spec. -/
def pen_edge_tuple {α : Type} [LinearOrderedField α] (r s p : Knot α) : List (Pt α) :=
  [⟨r.x + p.x, r.y + p.y⟩,
   ⟨r.right_info.x + p.x, r.right_info.y + p.y⟩,
   ⟨s.left_info.x + p.x, s.left_info.y + p.y⟩,
   ⟨s.x + p.x, s.y + p.y⟩]

/-- Concrete path knot p = (0,0) of a straight segment to (10,0). -/
def c1p : Knot ℚ :=
  ⟨0, 0, ⟨0, 0⟩, ⟨10/3, 0⟩, kt_open, kt_explicit⟩

/-- Concrete path knot q = (10,0), successor of c1p. -/
def c1q : Knot ℚ :=
  ⟨10, 0, ⟨20/3, 0⟩, ⟨0, 0⟩, kt_explicit, kt_regular⟩

/-- Concrete pen knot r = (1/2,1/2) of the unit-square pen. -/
def c1r : Knot ℚ :=
  ⟨1/2, 1/2, ⟨1/2, 1/6⟩, ⟨1/6, 1/2⟩, kt_explicit, kt_explicit⟩

/-- Ring predecessor (1/2,-1/2) of c1r on the unit-square pen. -/
def c1rp : Knot ℚ :=
  ⟨1/2, -1/2, ⟨1/2, -1/6⟩, ⟨1/2, -1/6⟩, kt_explicit, kt_explicit⟩

/-- Ring successor (-1/2,1/2) of c1r on the unit-square pen. -/
def c1rs : Knot ℚ :=
  ⟨-1/2, 1/2, ⟨-1/6, 1/2⟩, ⟨-1/2, 1/6⟩, kt_explicit, kt_explicit⟩

/-- C1, counterexample.  On the straight segment (0,0) to (10,0) with
tangents v1 = v2 = v3 = (1,0) and the square-pen knot r = (1/2,1/2)
(so v4 = (0,1), v5 = (-1,0)), within_turn (v1,v2,v5) holds and
within_turn (v4,v5,v3) fails, yet convolve emits the pen edge
translated by p, not the path segment translated by r as the claim
pairs the conditions. -/
theorem C1_counterexample :
    ¬ (convolve c1p c1q 1 0 1 0 10 0 c1r c1rp c1rs [] =
      (if within_turn (1 : ℚ) 0 1 0 (c1rs.x - c1r.x) (c1rs.y - c1r.y) then
        path_segment_tuple c1p c1q c1r else []) ++
      (if within_turn (c1r.x - c1rp.x) (c1r.y - c1rp.y)
          (c1rs.x - c1r.x) (c1rs.y - c1r.y) (10 : ℚ) 0 then
        pen_edge_tuple c1r c1rs c1p else [])) := by
  norm_num [convolve, within_turn, clockwise, SMALL, make_move,
    path_segment_tuple, pen_edge_tuple, c1p, c1q, c1r, c1rp, c1rs, Pt.mk.injEq]

/-- C1, amended.  convolve appends, in order: the pen edge r to succ r
translated by the path knot position p exactly when
within_turn (v1, v2, v5) holds, and the path segment p to q translated
by the pen knot position r exactly when within_turn (v4, v5, v3) holds
(the spec pairs the two conditions with the opposite emissions). -/
theorem C1_amended {α : Type} [LinearOrderedField α] (p q r rp rs : Knot α)
    (x1 y1 x2 y2 x3 y3 : α) (trace : List (Pt α)) :
    convolve p q x1 y1 x2 y2 x3 y3 r rp rs trace =
      trace ++
      (if within_turn x1 y1 x2 y2 (rs.x - r.x) (rs.y - r.y) then
        pen_edge_tuple r rs p else []) ++
      (if within_turn (r.x - rp.x) (r.y - rp.y) (rs.x - r.x) (rs.y - r.y) x3 y3 then
        path_segment_tuple p q r else []) := by
  cases h1 : within_turn x1 y1 x2 y2 (rs.x - r.x) (rs.y - r.y) <;>
    cases h2 : within_turn (r.x - rp.x) (r.y - rp.y) (rs.x - r.x) (rs.y - r.y) x3 y3 <;>
      simp [convolve, make_move, pen_edge_tuple, path_segment_tuple, h1, h2, add_comm]

/-! Ring reversal, knots_ring_reverse of knots.c.  A ring is modelled as
the list of knots read in successor order from the entry knot.  The C
loop walks the cycle once: it swaps the left and right payloads of
every knot, reverses the two links of every knot (which flips the
traversal orientation), and remembers the last knot in traversal order
whose right side was Regular before the swap.  If one was found it
becomes the new entry knot; its left type is set to Open and the right
type of its predecessor in the new orientation (its old successor) is
set to Regular. -/

/-- Swap the left and right payloads (info and type) of a knot, as the
loop body of knots_ring_reverse does. -/
def swap_sides {α : Type} (k : Knot α) : Knot α :=
  ⟨k.x, k.y, k.right_info, k.left_info, k.right_type, k.left_type⟩

/-- Index of the last knot in traversal order whose right type is
Regular; models the new_start variable of knots_ring_reverse, which is
overwritten at every Regular right side met during the walk. -/
def lastRegIdx {α : Type} : List (Knot α) → Option ℕ
  | [] => none
  | k :: ks =>
    match lastRegIdx ks with
    | some j => some (j + 1)
    | none => if k.right_type = kt_regular then some 0 else none

/-- Set the right type of the last knot of a list to Regular; models
the write through the predecessor link of the new entry knot. -/
def set_last_right_regular {α : Type} : List (Knot α) → List (Knot α)
  | [] => []
  | [k] => [{ k with right_type := kt_regular }]
  | k :: k2 :: ks => k :: set_last_right_regular (k2 :: ks)

/-- The head fix-up of knots_ring_reverse: the new entry knot gets left
type Open and its ring predecessor (the last knot of the reoriented
list; the entry knot itself in a one-knot ring) gets right type
Regular. -/
def fix_new_head {α : Type} : List (Knot α) → List (Knot α)
  | [] => []
  | [k] => [{ k with left_type := kt_open, right_type := kt_regular }]
  | h :: h2 :: t => { h with left_type := kt_open } :: set_last_right_regular (h2 :: t)

/-- knots_ring_reverse of knots.c on the list-of-knots ring model. -/
def knots_ring_reverse {α : Type} (ks : List (Knot α)) : List (Knot α) :=
  match ks with
  | [] => []
  | k0 :: rest =>
    let flipped := swap_sides k0 :: (rest.map swap_sides).reverse
    match lastRegIdx (k0 :: rest) with
    | none => flipped
    | some j => fix_new_head (flipped.rotate ((rest.length + 1 - j) % (rest.length + 1)))

theorem swap_sides_swap_sides {α : Type} (k : Knot α) :
    swap_sides (swap_sides k) = k := rfl

theorem lastRegIdx_append_singleton {α : Type} (init : List (Knot α)) (b : Knot α)
    (hb : b.right_type = kt_regular) :
    lastRegIdx (init ++ [b]) = some init.length := by
  induction init with
  | nil => simp [lastRegIdx, hb]
  | cons a t ih => simp [lastRegIdx, ih]

theorem lastRegIdx_eq_none {α : Type} (ks : List (Knot α))
    (h : ∀ k ∈ ks, k.right_type ≠ kt_regular) :
    lastRegIdx ks = none := by
  induction ks with
  | nil => rfl
  | cons a t ih =>
    have ha : a.right_type ≠ kt_regular := h a (by simp)
    have ht := ih (fun k hk => h k (by simp [hk]))
    simp [lastRegIdx, ht, ha]

theorem set_last_append {α : Type} (l : List (Knot α)) (x : Knot α) :
    set_last_right_regular (l ++ [x]) = l ++ [{ x with right_type := kt_regular }] := by
  induction l with
  | nil => rfl
  | cons a t ih =>
    cases t with
    | nil => rfl
    | cons b t2 => simpa [set_last_right_regular] using ih

theorem rotate_one_cons {β : Type} (a : β) (l : List β) :
    (a :: l).rotate 1 = l ++ [a] := by
  simpa using List.rotate_cons_succ l a 0

theorem fix_new_head_append {α : Type} (h : Knot α) (l : List (Knot α)) (x : Knot α) :
    fix_new_head (h :: (l ++ [x])) =
      ({ h with left_type := kt_open } :: l) ++ [{ x with right_type := kt_regular }] := by
  cases l with
  | nil => rfl
  | cons a t =>
    have h2 := set_last_append (a :: t) x
    simp only [List.cons_append] at h2
    simp [fix_new_head, h2]

/-- Core structural fact: when the last knot of the ring has a Regular
right side, knots_ring_reverse hands the head role to that knot
(payload-swapped, left type forced Open) and the reoriented remainder
follows, with the old entry knot (now last) getting a Regular right
type. -/
theorem knots_ring_reverse_last_regular {α : Type} (init : List (Knot α)) (b : Knot α)
    (hb : b.right_type = kt_regular) :
    knots_ring_reverse (init ++ [b]) =
      fix_new_head (swap_sides b :: (init.map swap_sides).reverse) := by
  cases init with
  | nil =>
    simp [knots_ring_reverse, lastRegIdx, hb]
  | cons k0 mid =>
    have hidx : lastRegIdx ((k0 :: mid) ++ [b]) = some (mid.length + 1) := by
      simpa using lastRegIdx_append_singleton (k0 :: mid) b hb
    have hrw : (k0 :: mid) ++ [b] = k0 :: (mid ++ [b]) := by simp
    rw [hrw] at hidx ⊢
    have hlen : (mid ++ [b]).length = mid.length + 1 := by simp
    have hmod : ((mid ++ [b]).length + 1 - (mid.length + 1)) % ((mid ++ [b]).length + 1) = 1 := by
      simp [hlen]
    simp only [knots_ring_reverse, hidx, hmod, hlen]
    have hflip : (swap_sides k0 :: ((mid ++ [b]).map swap_sides).reverse) =
        swap_sides k0 :: swap_sides b :: (mid.map swap_sides).reverse := by
      simp
    have hmod2 : (mid.length + 1 + 1 - (mid.length + 1)) % (mid.length + 1 + 1) = 1 := by
      have h1 : mid.length + 1 + 1 - (mid.length + 1) = 1 := by omega
      rw [h1]
      exact Nat.mod_eq_of_lt (by omega)
    rw [hflip, hmod2, rotate_one_cons]
    simp

theorem knots_ring_reverse_no_regular {α : Type} (k0 : Knot α) (rest : List (Knot α))
    (h : ∀ k ∈ k0 :: rest, k.right_type ≠ kt_regular) :
    knots_ring_reverse (k0 :: rest) = swap_sides k0 :: (rest.map swap_sides).reverse := by
  simp [knots_ring_reverse, lastRegIdx_eq_none _ h]

/-- A pen-style ring: no side descriptor anywhere is Regular. -/
def pen_wf {α : Type} (ks : List (Knot α)) : Prop :=
  ∀ k ∈ ks, k.right_type ≠ kt_regular ∧ k.left_type ≠ kt_regular

/-- A path-style ring read from its entry knot: the last knot carries
the unique Regular right boundary, no left side is Regular, and the
entry knot has an Open left side. -/
def path_wf {α : Type} (ks : List (Knot α)) : Prop :=
  ∃ init b, ks = init ++ [b] ∧ b.right_type = kt_regular ∧
    (∀ k ∈ init, k.right_type ≠ kt_regular) ∧
    (∀ k ∈ ks, k.left_type ≠ kt_regular) ∧
    (ks.headD b).left_type = kt_open

/-- Concrete path ring knot A = (0,0), the entry knot. -/
def c4A : Knot ℚ := ⟨0, 0, ⟨0, 0⟩, ⟨3/10, 0⟩, kt_open, kt_explicit⟩

/-- Concrete path ring knot B = (1,0). -/
def c4B : Knot ℚ := ⟨1, 0, ⟨7/10, 0⟩, ⟨13/10, 0⟩, kt_explicit, kt_explicit⟩

/-- Concrete path ring knot C = (2,0), the Regular boundary. -/
def c4C : Knot ℚ := ⟨2, 0, ⟨17/10, 0⟩, ⟨0, 0⟩, kt_explicit, kt_regular⟩

/-- Concrete three-knot path ring A, B, C. -/
def c4ring : List (Knot ℚ) := [c4A, c4B, c4C]

/-- C4, counterexample.  On the path ring A(0,0), B(1,0), C(2,0) with
C the unique Regular right boundary, knots_ring_reverse returns the
knot at position (2,0), i.e. C, whose old left side was Explicit; no
knot of the ring had a Regular left side, so the claim that the knot
whose old left side was Regular becomes the new head fails. -/
theorem C4_counterexample :
    ¬ (((c4ring.filter fun k => decide (k.right_type = kt_regular)).length = 1) →
      ∃ k ∈ c4ring, k.left_type = kt_regular ∧
        ∃ h, (knots_ring_reverse c4ring).head? = some h ∧ h.x = k.x ∧ h.y = k.y) := by
  intro hcl
  have hone : ((c4ring.filter fun k => decide (k.right_type = kt_regular)).length = 1) := by
    simp [c4ring, c4A, c4B, c4C]
  obtain ⟨k, hk, hreg, -⟩ := hcl hone
  fin_cases hk <;> simp [c4A, c4B, c4C] at hreg

/-- C4, amended.  knots_ring_reverse swaps the left and right payloads
of every knot and flips the orientation.  If the ring has Regular right
sides, the last such knot (the unique one on a well-formed path ring)
becomes the new head: its old right side was Regular, so after the swap
its left side is Regular, which the fix-up then turns into Open while
the new predecessor of the head (the old entry knot when the boundary
was last) receives a Regular right type.  If no knot has a Regular
right side, the old entry knot stays the head of the reoriented,
payload-swapped ring. -/
theorem C4_amended {α : Type} :
    (∀ (init : List (Knot α)) (b : Knot α), b.right_type = kt_regular →
      knots_ring_reverse (init ++ [b]) =
        fix_new_head (swap_sides b :: (init.map swap_sides).reverse)) ∧
    (∀ (k0 : Knot α) (rest : List (Knot α)),
      (∀ k ∈ k0 :: rest, k.right_type ≠ kt_regular) →
      knots_ring_reverse (k0 :: rest) = swap_sides k0 :: (rest.map swap_sides).reverse) :=
  ⟨knots_ring_reverse_last_regular, knots_ring_reverse_no_regular⟩

/-- C4, witness: the amended description applied to the concrete path
ring A, B, C. -/
theorem C4_witness :
    knots_ring_reverse ([c4A, c4B] ++ [c4C]) =
      fix_new_head (swap_sides c4C :: ([c4A, c4B].map swap_sides).reverse) :=
  C4_amended.1 [c4A, c4B] c4C rfl

/-- C5.  Reversal is an involution on well-formed rings: on a pen ring
with no Regular side and on a path ring whose last knot carries the
unique Regular right boundary (entry knot left side Open, no Regular
left sides), reversing twice returns the original ring, knot by knot,
from the returned head. -/
theorem C5_reverse_involution {α : Type} (ks : List (Knot α))
    (h : pen_wf ks ∨ path_wf ks) :
    knots_ring_reverse (knots_ring_reverse ks) = ks := by
  rcases h with hpen | hpath
  · cases ks with
    | nil => rfl
    | cons k0 rest =>
      have h1 : ∀ k ∈ k0 :: rest, k.right_type ≠ kt_regular :=
        fun k hk => (hpen k hk).1
      rw [knots_ring_reverse_no_regular k0 rest h1]
      have h2 : ∀ k ∈ swap_sides k0 :: (rest.map swap_sides).reverse,
          k.right_type ≠ kt_regular := by
        intro k hk
        rcases List.mem_cons.mp hk with rfl | hk2
        · exact (hpen k0 (by simp)).2
        · rw [List.mem_reverse] at hk2
          obtain ⟨k0', hk0', rfl⟩ := List.mem_map.mp hk2
          exact (hpen k0' (by simp [hk0'])).2
      rw [knots_ring_reverse_no_regular _ _ h2]
      simp [List.map_reverse, Function.comp_def, swap_sides_swap_sides]
  · obtain ⟨init, b, rfl, hb, hinit, hleft, hhead⟩ := hpath
    rw [knots_ring_reverse_last_regular init b hb]
    cases init with
    | nil =>
      have hbl : b.left_type = kt_open := by simpa using hhead
      simp only [List.map_nil, List.reverse_nil, fix_new_head]
      have : ({ swap_sides b with left_type := kt_open, right_type := kt_regular } : Knot α) =
          ⟨b.x, b.y, b.right_info, b.left_info, kt_open, kt_regular⟩ := rfl
      rw [this]
      have h9 := knots_ring_reverse_last_regular ([] : List (Knot α))
        (⟨b.x, b.y, b.right_info, b.left_info, kt_open, kt_regular⟩ : Knot α) rfl
      simp only [List.nil_append] at h9 ⊢
      rw [h9]
      simp only [List.map_nil, List.reverse_nil, fix_new_head, swap_sides]
      cases b with
      | mk x y li ri lt rt =>
        simp at hb hbl
        simp [hb, hbl]
    | cons k0 mid =>
      have hk0l : k0.left_type = kt_open := by simpa using hhead
      have e1 : ((k0 :: mid).map swap_sides).reverse =
          (mid.map swap_sides).reverse ++ [swap_sides k0] := by simp
      rw [e1, fix_new_head_append]
      rw [knots_ring_reverse_last_regular
        ({ swap_sides b with left_type := kt_open } :: (mid.map swap_sides).reverse)
        ({ swap_sides k0 with right_type := kt_regular }) rfl]
      have e2 : ((({ swap_sides b with left_type := kt_open } : Knot α) ::
          (mid.map swap_sides).reverse).map swap_sides).reverse =
          mid ++ [swap_sides { swap_sides b with left_type := kt_open }] := by
        simp [List.map_reverse, List.map_map, Function.comp_def, swap_sides_swap_sides]
      rw [e2, fix_new_head_append]
      have ek0 : ({ swap_sides { swap_sides k0 with right_type := kt_regular } with
          left_type := kt_open } : Knot α) = k0 := by
        cases k0
        simp_all [swap_sides]
      have eb : ({ swap_sides { swap_sides b with left_type := kt_open } with
          right_type := kt_regular } : Knot α) = b := by
        cases b
        simp_all [swap_sides]
      rw [ek0, eb]

/-- C5, witness: the involution applied to the concrete path ring
A, B, C of the reversal development. -/
theorem C5_witness : knots_ring_reverse (knots_ring_reverse c4ring) = c4ring :=
  C5_reverse_involution c4ring (Or.inr ⟨[c4A, c4B], c4C, rfl, rfl,
    (by simp [c4A, c4B]), (by simp [c4ring, c4A, c4B, c4C]), rfl⟩)

/-! convolve_all of brush.c.  The driver walks the path ring from the
entry knot, computes the incoming, outgoing and chord vectors of each
segment, and convolves every pen knot with the segment; it resets the
trace to empty on entry.  The walk advances to the successor and stops
once it is back at the entry knot or standing on a Regular right side.
The inner pen loop visits every pen knot once, in ring order from the
pen entry, with its cyclic predecessor and successor. -/

/-- The pen knots in ring order, each with its cyclic predecessor and
successor. -/
def pen_triples {α : Type} (pen : List (Knot α)) :
    List (Knot α × Knot α × Knot α) :=
  pen.zip ((pen.rotate (pen.length - 1)).zip (pen.rotate 1))

/-- One path segment of convolve_all: the vector setup at p followed by
the inner do-while over the pen ring. -/
def segment_trace {α : Type} [LinearOrderedField α] (p q : Knot α)
    (pen : List (Knot α)) (trace : List (Pt α)) : List (Pt α) :=
  let x2 := p.right_info.x - p.x
  let y2 := p.right_info.y - p.y
  let x1 := if p.left_type = kt_explicit then p.x - p.left_info.x else -x2
  let y1 := if p.left_type = kt_explicit then p.y - p.left_info.y else -y2
  let x3 := q.x - p.x
  let y3 := q.y - p.y
  (pen_triples pen).foldl
    (fun tr t => convolve p q x1 y1 x2 y2 x3 y3 t.1 t.2.1 t.2.2 tr) trace

/-- The outer do-while of convolve_all.  The successor of the last
knot is the entry knot (the cyclic wrap), after which the loop stops;
it also stops on reaching a knot with a Regular right side. -/
def convolve_all_go {α : Type} [LinearOrderedField α] (pen : List (Knot α))
    (head : Knot α) : Knot α → List (Knot α) → List (Pt α) → List (Pt α)
  | p, [], trace => segment_trace p head pen trace
  | p, q :: rest, trace =>
    let trace1 := segment_trace p q pen trace
    if q.right_type = kt_regular then trace1
    else convolve_all_go pen head q rest trace1

/-- convolve_all of brush.c: trace_top is reset to zero on entry, so
the trace starts empty. -/
def convolve_all {α : Type} [LinearOrderedField α]
    (path pen : List (Knot α)) : List (Pt α) :=
  match path with
  | [] => []
  | k0 :: rest => convolve_all_go pen k0 k0 rest []

/-- Number of emissions of one convolve call: one per satisfied
within_turn test. -/
def convolve_emits {α : Type} [LinearOrderedField α]
    (x1 y1 x2 y2 x3 y3 : α) (r rp rs : Knot α) : ℕ :=
  let x4 := r.x - rp.x
  let y4 := r.y - rp.y
  let x5 := rs.x - r.x
  let y5 := rs.y - r.y
  (if within_turn x1 y1 x2 y2 x5 y5 then 1 else 0) +
    (if within_turn x4 y4 x5 y5 x3 y3 then 1 else 0)

/-- Number of emissions of one path segment. -/
def segment_count {α : Type} [LinearOrderedField α] (p q : Knot α)
    (pen : List (Knot α)) : ℕ :=
  let x2 := p.right_info.x - p.x
  let y2 := p.right_info.y - p.y
  let x1 := if p.left_type = kt_explicit then p.x - p.left_info.x else -x2
  let y1 := if p.left_type = kt_explicit then p.y - p.left_info.y else -y2
  let x3 := q.x - p.x
  let y3 := q.y - p.y
  ((pen_triples pen).map
    (fun t => convolve_emits x1 y1 x2 y2 x3 y3 t.1 t.2.1 t.2.2)).sum

/-- Number of emissions of the outer walk. -/
def convolve_all_count_go {α : Type} [LinearOrderedField α] (pen : List (Knot α))
    (head : Knot α) : Knot α → List (Knot α) → ℕ
  | p, [] => segment_count p head pen
  | p, q :: rest =>
    segment_count p q pen +
      (if q.right_type = kt_regular then 0 else convolve_all_count_go pen head q rest)

/-- Number of pieces convolve_all emits. -/
def convolve_all_count {α : Type} [LinearOrderedField α]
    (path pen : List (Knot α)) : ℕ :=
  match path with
  | [] => 0
  | k0 :: rest => convolve_all_count_go pen k0 k0 rest

theorem convolve_length {α : Type} [LinearOrderedField α] (p q : Knot α)
    (x1 y1 x2 y2 x3 y3 : α) (r rp rs : Knot α) (trace : List (Pt α)) :
    (convolve p q x1 y1 x2 y2 x3 y3 r rp rs trace).length =
      trace.length + 4 * convolve_emits x1 y1 x2 y2 x3 y3 r rp rs := by
  cases h1 : within_turn x1 y1 x2 y2 (rs.x - r.x) (rs.y - r.y) <;>
    cases h2 : within_turn (r.x - rp.x) (r.y - rp.y) (rs.x - r.x) (rs.y - r.y) x3 y3 <;>
      simp [convolve, convolve_emits, make_move, h1, h2] <;> omega

theorem segment_trace_length {α : Type} [LinearOrderedField α] (p q : Knot α)
    (pen : List (Knot α)) (trace : List (Pt α)) :
    (segment_trace p q pen trace).length =
      trace.length + 4 * segment_count p q pen := by
  rw [segment_trace, segment_count]
  generalize pen_triples pen = ts
  induction ts generalizing trace with
  | nil => simp
  | cons t ts ih =>
    simp only [List.foldl_cons, List.map_cons, List.sum_cons]
    rw [ih, convolve_length]
    ring

theorem convolve_all_go_length {α : Type} [LinearOrderedField α]
    (pen : List (Knot α)) (head : Knot α) (rest : List (Knot α)) :
    ∀ (p : Knot α) (trace : List (Pt α)),
      (convolve_all_go pen head p rest trace).length =
        trace.length + 4 * convolve_all_count_go pen head p rest := by
  induction rest with
  | nil =>
    intro p trace
    simp [convolve_all_go, convolve_all_count_go, segment_trace_length]
  | cons q rest ih =>
    intro p trace
    by_cases hq : q.right_type = kt_regular <;>
      simp [convolve_all_go, convolve_all_count_go, hq, segment_trace_length, ih] <;>
        ring

/-- C9.  After convolve_all returns, the trace length is exactly four
times the number of emitted pieces, hence a multiple of four: the
trace is reset on entry and every emission (every make_move call)
appends exactly four consecutive points, so grouping the trace into
4-tuples is always aligned. -/
theorem C9_trace_alignment {α : Type} [LinearOrderedField α]
    (path pen : List (Knot α)) :
    (convolve_all path pen).length = 4 * convolve_all_count path pen ∧
      4 ∣ (convolve_all path pen).length := by
  have h : (convolve_all path pen).length = 4 * convolve_all_count path pen := by
    cases path with
    | nil => simp [convolve_all, convolve_all_count]
    | cons k0 rest =>
      simpa [convolve_all, convolve_all_count] using
        convolve_all_go_length pen k0 rest k0 []
  exact ⟨h, h ▸ Dvd.intro _ rfl⟩

/-! The numeric kernels of brush.c: solve_quadratic and solve_bezier.
The C functions push their roots onto the global tee stack and return
the number of roots; the model returns the list of pushed values in
push order, which callers append to their accumulated stack. -/

/-- solve_quadratic of brush.c.  The second argument is B = -b/2 of
the conventional quadratic a x^2 + b x + c. -/
noncomputable def solve_quadratic (a b c : ℝ) : List ℝ :=
  if a = 0 then
    if b ≠ 0 then [c / (2 * b)] else []
  else if c = 0 then
    if b ≠ 0 then [0, 2 * b / a] else [0]
  else
    let d := b * b - a * c
    if d < 0 then []
    else
      let d2 := Real.sqrt d
      if d2 = 0 then [b / a]
      else if b < 0 then [c / (b - d2), (b - d2) / a]
      else [c / (b + d2), (b + d2) / a]

/-- The root list the claim describes for solve_quadratic, written
case by case from the words of the spec. -/
noncomputable def quad_roots_spec (a b c : ℝ) : List ℝ :=
  if a = 0 ∧ b = 0 then []
  else if a = 0 then [c / (2 * b)]
  else if c = 0 then
    if b ≠ 0 then [0, 2 * b / a] else [0]
  else
    let d := b * b - a * c
    if d < 0 then []
    else if d = 0 then [b / a]
    else if b < 0 then [c / (b - Real.sqrt d), (b - Real.sqrt d) / a]
    else [c / (b + Real.sqrt d), (b + Real.sqrt d) / a]

/-- C6.  solve_quadratic pushes exactly the roots the claim lists, in
the claimed push order: no roots for A = B = 0; the single root C/(2B)
for A = 0, B not 0; for C = 0 the root 0 and, when B is not 0, the
second root 2B/A; otherwise with D = B^2 - A C no roots when D < 0,
the single root B/A when D = 0, and for D > 0 the Citardauq pair
C/(B-sqrt D), (B-sqrt D)/A when B < 0, else C/(B+sqrt D),
(B+sqrt D)/A. -/
theorem C6_solve_quadratic_spec (a b c : ℝ) :
    solve_quadratic a b c = quad_roots_spec a b c := by
  rw [solve_quadratic, quad_roots_spec]
  by_cases ha : a = 0
  · by_cases hb : b = 0 <;> simp [ha, hb]
  · by_cases hc : c = 0
    · simp [ha, hc]
    · by_cases hd : b * b - a * c < 0
      · simp [ha, hc, hd]
      · by_cases hz : b * b - a * c = 0
        · simp [ha, hc, hd, hz, Real.sqrt_zero]
        · have hpos : 0 < b * b - a * c := lt_of_le_of_ne (not_lt.mp hd) (Ne.symm hz)
          have hs : Real.sqrt (b * b - a * c) ≠ 0 := ne_of_gt (Real.sqrt_pos.mpr hpos)
          simp [ha, hc, hd, hz, hs]

/-! brush_make of brush.c with its angle helpers.  The ring is the
list of knots in successor order from the argument knot; PRED of the
entry knot is the last knot.  The loop visits the knots in order,
writing the chord control points of the edge leaving each knot before
running the duplicate and left-turn checks of that edge. -/

/-- Two-argument arctangent with the quadrant conventions of the C
library function atan2 (signed zeros aside; the core never calls it on
the zero vector). -/
noncomputable def atan2 (y x : ℝ) : ℝ :=
  if 0 < x then Real.arctan (y / x)
  else if x < 0 then
    if 0 ≤ y then Real.arctan (y / x) + Real.pi else Real.arctan (y / x) - Real.pi
  else
    if 0 < y then Real.pi / 2 else if y < 0 then -(Real.pi / 2) else 0

/-- reduce_angle of the repository: one-shot reduction into the
interval from -pi to pi. -/
noncomputable def reduce_angle (a : ℝ) : ℝ :=
  if Real.pi < a then a - 2 * Real.pi
  else if a < -Real.pi then a + 2 * Real.pi
  else a

/-- The control point brush_make writes into the right side of knot j:
one third of the way along the edge leaving j. -/
noncomputable def rchordPt (ks : List (Knot ℝ)) (j : ℕ) : Pt ℝ :=
  let p := ks.getD j default
  let q := ks.getD ((j + 1) % ks.length) default
  ⟨p.x + (q.x - p.x) / 3, p.y + (q.y - p.y) / 3⟩

/-- The control point brush_make writes into the left side of knot j:
one third of the way back along the edge entering j. -/
noncomputable def lchordPt (ks : List (Knot ℝ)) (j : ℕ) : Pt ℝ :=
  let q := ks.getD j default
  let p := ks.getD ((j + ks.length - 1) % ks.length) default
  ⟨q.x - (q.x - p.x) / 3, q.y - (q.y - p.y) / 3⟩

/-- The two control-point writes of one brush_make loop iteration,
for the edge from p = knot i to q = its ring successor:
p.right_info.e becomes p + (q - p)/3 and q.left_info.e becomes
q - (q - p)/3; every other knot is untouched.  When the ring has one
knot, p and q alias and the knot receives both writes, right first,
as in the C code. -/
noncomputable def writeEdge (ks : List (Knot ℝ)) (i : ℕ) : List (Knot ℝ) :=
  let p := ks.getD i default
  let q := ks.getD ((i + 1) % ks.length) default
  ks.mapIdx (fun j k =>
    let k1 := if j = i then
      { k with right_info := ⟨p.x + (q.x - p.x) / 3, p.y + (q.y - p.y) / 3⟩ } else k
    if j = (i + 1) % ks.length then
      { k1 with left_info := ⟨q.x - (q.x - p.x) / 3, q.y - (q.y - p.y) / 3⟩ } else k1)

/-- The loop of brush_make: one iteration per knot, carrying the
direction of the edge entering the current knot and the accumulated
turning angle.  After the full traversal the winding check runs. -/
noncomputable def bmLoop : List (Knot ℝ) → ℕ → ℕ → ℝ → ℝ → ℝ → Int × List (Knot ℝ)
  | ks, 0, _, _, _, alpha =>
    if 2 * Real.pi < alpha then (-3, ks) else (1, ks)
  | ks, fuel + 1, i, dx, dy, alpha =>
    let p := ks.getD i default
    let q := ks.getD ((i + 1) % ks.length) default
    let du := q.x - p.x
    let dv := q.y - p.y
    let ks1 := writeEdge ks i
    if du = 0 ∧ dv = 0 then (-1, ks1)
    else
      let theta := reduce_angle (atan2 dv du - atan2 dy dx)
      if theta ≤ 0 then (-2, ks1)
      else bmLoop ks1 fuel (i + 1) du dv (alpha + theta)

/-- brush_make of brush.c.  Returns the outcome code together with the
ring as left behind by the control-point writes. -/
noncomputable def brush_make (ks : List (Knot ℝ)) : Int × List (Knot ℝ) :=
  match ks with
  | [] => (1, [])
  | k0 :: rest =>
    let kl := (k0 :: rest).getLastD default
    let dx := k0.x - kl.x
    let dy := k0.y - kl.y
    if dx = 0 ∧ dy = 0 then (-1, k0 :: rest)
    else bmLoop (k0 :: rest) (k0 :: rest).length 0 dx dy 0

/-- The ring after the chord writes of m consecutive loop iterations
starting at edge i. -/
noncomputable def applyEdges : List (Knot ℝ) → ℕ → ℕ → List (Knot ℝ)
  | ks, _, 0 => ks
  | ks, i, m + 1 => applyEdges (writeEdge ks i) (i + 1) m

theorem writeEdge_length (ks : List (Knot ℝ)) (i : ℕ) :
    (writeEdge ks i).length = ks.length := by
  simp [writeEdge]

theorem writeEdge_getD (ks : List (Knot ℝ)) (i j : ℕ) (hj : j < ks.length) :
    (writeEdge ks i).getD j default =
      (let p := ks.getD i default
       let q := ks.getD ((i + 1) % ks.length) default
       let k := ks.getD j default
       let k1 := if j = i then
         { k with right_info := ⟨p.x + (q.x - p.x) / 3, p.y + (q.y - p.y) / 3⟩ } else k
       if j = (i + 1) % ks.length then
         { k1 with left_info := ⟨q.x - (q.x - p.x) / 3, q.y - (q.y - p.y) / 3⟩ } else k1) := by
  have hjv : ks[j]? = some ks[j] := List.getElem?_eq_getElem hj
  have hgd : ks.getD j default = ks[j] := by
    rw [List.getD_eq_getElem?_getD, hjv]
    rfl
  simp only [writeEdge, List.getD_eq_getElem?_getD, List.getElem?_mapIdx, hjv]
  rfl

theorem writeEdge_getD_untouched (ks : List (Knot ℝ)) (i j : ℕ)
    (hji : j ≠ i) (hjs : j ≠ (i + 1) % ks.length) :
    (writeEdge ks i).getD j default = ks.getD j default := by
  by_cases hj : j < ks.length
  · rw [writeEdge_getD ks i j hj]
    simp [hji, hjs]
  · have h1 : (writeEdge ks i).getD j default = default := by
      rw [List.getD_eq_getElem?_getD, List.getElem?_eq_none]
      · rfl
      · rw [writeEdge_length]; omega
    have h2 : ks.getD j default = default := by
      rw [List.getD_eq_getElem?_getD, List.getElem?_eq_none]
      · rfl
      · omega
    rw [h1, h2]

theorem writeEdge_frame (ks : List (Knot ℝ)) (i j : ℕ) :
    ((writeEdge ks i).getD j default).x = (ks.getD j default).x ∧
    ((writeEdge ks i).getD j default).y = (ks.getD j default).y ∧
    ((writeEdge ks i).getD j default).left_type = (ks.getD j default).left_type ∧
    ((writeEdge ks i).getD j default).right_type = (ks.getD j default).right_type := by
  by_cases hj : j < ks.length
  · rw [writeEdge_getD ks i j hj]
    simp only []
    split_ifs <;> simp
  · have h1 : (writeEdge ks i).getD j default = default := by
      rw [List.getD_eq_getElem?_getD, List.getElem?_eq_none]
      · rfl
      · rw [writeEdge_length]; omega
    have h2 : ks.getD j default = default := by
      rw [List.getD_eq_getElem?_getD, List.getElem?_eq_none]
      · rfl
      · omega
    rw [h1, h2]
    exact ⟨rfl, rfl, rfl, rfl⟩

/-- The ring state after the chord writes of iterations i, i+1, ...,
i+m-1: right controls written on that index range, left controls on
the successor range, wrapping to knot 0 on the final edge. -/
noncomputable def chordTarget (ks : List (Knot ℝ)) (i m : ℕ) : List (Knot ℝ) :=
  ks.mapIdx (fun j k =>
    { k with
      right_info := if i ≤ j ∧ j < i + m then rchordPt ks j else k.right_info,
      left_info := if (i + 1 ≤ j ∧ j ≤ i + m) ∨ (j = 0 ∧ i + m = ks.length ∧ 1 ≤ m)
        then lchordPt ks j else k.left_info })

theorem chordTarget_length (ks : List (Knot ℝ)) (i m : ℕ) :
    (chordTarget ks i m).length = ks.length := by
  simp [chordTarget]

theorem chordTarget_zero (ks : List (Knot ℝ)) (i : ℕ) :
    chordTarget ks i 0 = ks := by
  apply List.ext_getElem?
  intro j
  rw [chordTarget, List.getElem?_mapIdx]
  cases hjv : ks[j]? with
  | none => rfl
  | some k =>
    have h1 : ¬ (i ≤ j ∧ j < i) := by omega
    have h2 : ¬ (i + 1 ≤ j ∧ j ≤ i) := by omega
    simp [h1, h2]

theorem chordTarget_getD (ks : List (Knot ℝ)) (i m j : ℕ) (hj : j < ks.length) :
    (chordTarget ks i m).getD j default =
      { ks.getD j default with
        right_info := if i ≤ j ∧ j < i + m then rchordPt ks j
          else (ks.getD j default).right_info,
        left_info := if (i + 1 ≤ j ∧ j ≤ i + m) ∨ (j = 0 ∧ i + m = ks.length ∧ 1 ≤ m)
          then lchordPt ks j else (ks.getD j default).left_info } := by
  have hjv : ks[j]? = some ks[j] := List.getElem?_eq_getElem hj
  have hgd : ks.getD j default = ks[j] := by
    rw [List.getD_eq_getElem?_getD, hjv]
    rfl
  simp only [chordTarget, List.getD_eq_getElem?_getD, List.getElem?_mapIdx, hjv]
  rfl

theorem rchordPt_writeEdge (ks : List (Knot ℝ)) (i2 j : ℕ) :
    rchordPt (writeEdge ks i2) j = rchordPt ks j := by
  simp only [rchordPt, writeEdge_length, (writeEdge_frame ks i2 j).1,
    (writeEdge_frame ks i2 j).2.1,
    (writeEdge_frame ks i2 ((j + 1) % ks.length)).1,
    (writeEdge_frame ks i2 ((j + 1) % ks.length)).2.1]

theorem lchordPt_writeEdge (ks : List (Knot ℝ)) (i2 j : ℕ) :
    lchordPt (writeEdge ks i2) j = lchordPt ks j := by
  simp only [lchordPt, writeEdge_length, (writeEdge_frame ks i2 j).1,
    (writeEdge_frame ks i2 j).2.1,
    (writeEdge_frame ks i2 ((j + ks.length - 1) % ks.length)).1,
    (writeEdge_frame ks i2 ((j + ks.length - 1) % ks.length)).2.1]

theorem lchordPt_succ (ks : List (Knot ℝ)) (i : ℕ) (hi : i < ks.length) :
    lchordPt ks ((i + 1) % ks.length) =
      ⟨(ks.getD ((i + 1) % ks.length) default).x -
        ((ks.getD ((i + 1) % ks.length) default).x - (ks.getD i default).x) / 3,
       (ks.getD ((i + 1) % ks.length) default).y -
        ((ks.getD ((i + 1) % ks.length) default).y - (ks.getD i default).y) / 3⟩ := by
  have hprev : ((i + 1) % ks.length + ks.length - 1) % ks.length = i := by
    rcases Nat.lt_or_ge (i + 1) ks.length with h | h
    · rw [Nat.mod_eq_of_lt h]
      have h2 : i + 1 + ks.length - 1 = i + ks.length := by omega
      rw [h2, Nat.add_mod_right, Nat.mod_eq_of_lt hi]
    · have hieq : i + 1 = ks.length := by omega
      rw [hieq, Nat.mod_self]
      have h2 : 0 + ks.length - 1 = ks.length - 1 := by omega
      rw [h2, Nat.mod_eq_of_lt (by omega)]
      omega
  rw [lchordPt, hprev]

/-- One write step absorbed into the chord-target state, pointwise at
index j. -/
theorem chord_step_pointwise (ks : List (Knot ℝ)) (i m j : ℕ) (k : Knot ℝ)
    (hn : i + m + 1 ≤ ks.length) (hj : j < ks.length) :
    (let p := ks.getD i default
     let q := ks.getD ((i + 1) % ks.length) default
     let k1 := if j = i then
       { k with right_info := ⟨p.x + (q.x - p.x) / 3, p.y + (q.y - p.y) / 3⟩ } else k
     let k2 := if j = (i + 1) % ks.length then
       { k1 with left_info := ⟨q.x - (q.x - p.x) / 3, q.y - (q.y - p.y) / 3⟩ } else k1
     { k2 with
        right_info := if i + 1 ≤ j ∧ j < i + 1 + m then rchordPt ks j else k2.right_info,
        left_info := if (i + 1 + 1 ≤ j ∧ j ≤ i + 1 + m) ∨
            (j = 0 ∧ i + 1 + m = ks.length ∧ 1 ≤ m)
          then lchordPt ks j else k2.left_info }) =
    { k with
        right_info := if i ≤ j ∧ j < i + (m + 1) then rchordPt ks j else k.right_info,
        left_info := if (i + 1 ≤ j ∧ j ≤ i + (m + 1)) ∨
            (j = 0 ∧ i + (m + 1) = ks.length ∧ 1 ≤ m + 1)
          then lchordPt ks j else k.left_info } := by
  have hi : i < ks.length := by omega
  have hrc : rchordPt ks i =
      ⟨(ks.getD i default).x +
        ((ks.getD ((i + 1) % ks.length) default).x - (ks.getD i default).x) / 3,
       (ks.getD i default).y +
        ((ks.getD ((i + 1) % ks.length) default).y - (ks.getD i default).y) / 3⟩ := rfl
  have hlc := lchordPt_succ ks i hi
  by_cases hji : j = i <;> by_cases hjs : j = (i + 1) % ks.length
  · -- j = i = (i+1) % n: one-knot ring, i = 0, m = 0
    have hn1 : ks.length = 1 := by
      rcases Nat.lt_or_ge (i + 1) ks.length with h | h
      · rw [Nat.mod_eq_of_lt h] at hjs
        omega
      · have hieq : i + 1 = ks.length := by omega
        rw [hieq, Nat.mod_self] at hjs
        omega
    have hi0 : i = 0 := by omega
    have hm0 : m = 0 := by omega
    subst hji hi0 hm0
    have hs0 : (0 + 1) % ks.length = 0 := by rw [hn1]
    simp only [hs0] at hlc hrc ⊢
    have c1 : ¬ (0 + 1 ≤ 0 ∧ (0:ℕ) < 0 + 1 + 0) := by omega
    have c2 : ¬ ((0 + 1 + 1 ≤ 0 ∧ (0:ℕ) ≤ 0 + 1 + 0) ∨
        ((0:ℕ) = 0 ∧ 0 + 1 + 0 = ks.length ∧ 1 ≤ 0)) := by omega
    have c3 : (0 ≤ 0 ∧ (0:ℕ) < 0 + (0 + 1)) := by omega
    have c4 : ((0 + 1 ≤ 0 ∧ (0:ℕ) ≤ 0 + (0 + 1)) ∨
        ((0:ℕ) = 0 ∧ 0 + (0 + 1) = ks.length ∧ 1 ≤ 0 + 1)) := by
      right
      exact ⟨rfl, by omega, by omega⟩
    simp only [if_pos rfl, if_pos c3, if_pos c4, if_neg c1, if_neg c2]
    simp [hrc, hlc, hn1]
  · -- j = i, successor distinct
    subst hji
    simp only [if_pos rfl, if_neg hjs]
    have c1 : ¬ (j + 1 ≤ j ∧ j < j + 1 + m) := by omega
    have c3 : (j ≤ j ∧ j < j + (m + 1)) := by omega
    have c2eq : ((j + 1 + 1 ≤ j ∧ j ≤ j + 1 + m) ∨ (j = 0 ∧ j + 1 + m = ks.length ∧ 1 ≤ m)) ↔
        ((j + 1 ≤ j ∧ j ≤ j + (m + 1)) ∨ (j = 0 ∧ j + (m + 1) = ks.length ∧ 1 ≤ m + 1)) := by
      constructor
      · intro h
        rcases h with h | h
        · omega
        · exact Or.inr (by omega)
      · intro h
        rcases h with h | h
        · omega
        · -- m = 0 would force (j+1) % n = 0 = j, contradicting hjs
          rcases Nat.eq_zero_or_pos m with hm | hm
          · exfalso
            have hjeq : j + 1 = ks.length := by omega
            apply hjs
            rw [hjeq, Nat.mod_self]
            omega
          · exact Or.inr (by omega)
    by_cases hc : (j + 1 + 1 ≤ j ∧ j ≤ j + 1 + m) ∨ (j = 0 ∧ j + 1 + m = ks.length ∧ 1 ≤ m)
    · simp only [if_pos hc, if_pos (c2eq.mp hc), if_neg c1, if_pos c3]
      simp [hrc]
    · simp only [if_neg hc, if_neg (fun h => hc (c2eq.mpr h)), if_neg c1, if_pos c3]
      simp [hrc]
  · -- j = (i+1) % n, j distinct from i
    subst hjs
    simp only [if_neg hji, if_pos rfl]
    have hrcond : ((i + 1 ≤ (i + 1) % ks.length ∧ (i + 1) % ks.length < i + 1 + m) ↔
        (i ≤ (i + 1) % ks.length ∧ (i + 1) % ks.length < i + (m + 1))) := by
      rcases Nat.lt_or_ge (i + 1) ks.length with h | h
      · rw [Nat.mod_eq_of_lt h]
        omega
      · have hieq : i + 1 = ks.length := by omega
        rw [hieq, Nat.mod_self]
        constructor
        · intro hcc
          omega
        · intro hcc
          exfalso
          exact hji (by omega)
    have hlcond : ((i + 1 + 1 ≤ (i + 1) % ks.length ∧ (i + 1) % ks.length ≤ i + 1 + m) ∨
          ((i + 1) % ks.length = 0 ∧ i + 1 + m = ks.length ∧ 1 ≤ m)) ∨ True := Or.inr trivial
    -- the left side of knot (i+1) % n always ends at the fresh chord value
    have hltgt : ((i + 1 ≤ (i + 1) % ks.length ∧ (i + 1) % ks.length ≤ i + (m + 1)) ∨
        ((i + 1) % ks.length = 0 ∧ i + (m + 1) = ks.length ∧ 1 ≤ m + 1)) := by
      rcases Nat.lt_or_ge (i + 1) ks.length with h | h
      · rw [Nat.mod_eq_of_lt h]
        exact Or.inl (by omega)
      · have hieq : i + 1 = ks.length := by omega
        rw [hieq, Nat.mod_self]
        exact Or.inr (by omega)
    by_cases hc : (i + 1 + 1 ≤ (i + 1) % ks.length ∧ (i + 1) % ks.length ≤ i + 1 + m) ∨
        ((i + 1) % ks.length = 0 ∧ i + 1 + m = ks.length ∧ 1 ≤ m)
    · by_cases hr : i + 1 ≤ (i + 1) % ks.length ∧ (i + 1) % ks.length < i + 1 + m
      · simp only [if_pos hc, if_pos hr, if_pos (hrcond.mp hr), if_pos hltgt]
        simp
      · simp only [if_pos hc, if_neg hr, if_neg (fun h => hr (hrcond.mpr h)), if_pos hltgt]
        simp
    · by_cases hr : i + 1 ≤ (i + 1) % ks.length ∧ (i + 1) % ks.length < i + 1 + m
      · simp only [if_neg hc, if_pos hr, if_pos (hrcond.mp hr), if_pos hltgt]
        simp [hlc]
      · simp only [if_neg hc, if_neg hr, if_neg (fun h => hr (hrcond.mpr h)), if_pos hltgt]
        simp [hlc]
  · -- j untouched by the write
    simp only [if_neg hji, if_neg hjs]
    have hrcond : ((i + 1 ≤ j ∧ j < i + 1 + m) ↔ (i ≤ j ∧ j < i + (m + 1))) := by
      omega
    have hlcond : (((i + 1 + 1 ≤ j ∧ j ≤ i + 1 + m) ∨ (j = 0 ∧ i + 1 + m = ks.length ∧ 1 ≤ m)) ↔
        ((i + 1 ≤ j ∧ j ≤ i + (m + 1)) ∨ (j = 0 ∧ i + (m + 1) = ks.length ∧ 1 ≤ m + 1))) := by
      constructor
      · intro h
        rcases h with h | h
        · exact Or.inl (by omega)
        · exact Or.inr (by omega)
      · intro h
        rcases h with h | h
        · rcases Nat.eq_or_lt_of_le h.1 with he | hlt
          · exfalso
            apply hjs
            rw [← he, Nat.mod_eq_of_lt (by omega)]
          · exact Or.inl (by omega)
        · rcases Nat.eq_zero_or_pos m with hm | hm
          · exfalso
            have hjeq : i + 1 = ks.length := by omega
            apply hjs
            rw [hjeq, Nat.mod_self]
            omega
          · exact Or.inr (by omega)
    by_cases hr : i + 1 ≤ j ∧ j < i + 1 + m <;>
      by_cases hc : (i + 1 + 1 ≤ j ∧ j ≤ i + 1 + m) ∨ (j = 0 ∧ i + 1 + m = ks.length ∧ 1 ≤ m)
    · simp only [if_pos hr, if_pos hc, if_pos (hrcond.mp hr), if_pos (hlcond.mp hc)]
    · simp only [if_pos hr, if_neg hc, if_pos (hrcond.mp hr),
        if_neg (fun h => hc (hlcond.mpr h))]
    · simp only [if_neg hr, if_pos hc, if_neg (fun h => hr (hrcond.mpr h)),
        if_pos (hlcond.mp hc)]
    · simp only [if_neg hr, if_neg hc, if_neg (fun h => hr (hrcond.mpr h)),
        if_neg (fun h => hc (hlcond.mpr h))]

/-- The loop writes of m consecutive iterations from edge i produce
exactly the chord-target state. -/
theorem applyEdges_eq_chordTarget :
    ∀ (m : ℕ) (ks : List (Knot ℝ)) (i : ℕ), i + m ≤ ks.length →
      applyEdges ks i m = chordTarget ks i m := by
  intro m
  induction m with
  | zero =>
    intro ks i _
    exact (chordTarget_zero ks i).symm
  | succ m ih =>
    intro ks i h
    have hi : i < ks.length := by omega
    have hstep : applyEdges ks i (m + 1) = applyEdges (writeEdge ks i) (i + 1) m := rfl
    rw [hstep, ih (writeEdge ks i) (i + 1) (by rw [writeEdge_length]; omega)]
    apply List.ext_getElem?
    intro j
    by_cases hj : j < ks.length
    · have hjv : ks[j]? = some ks[j] := List.getElem?_eq_getElem hj
      rw [chordTarget, chordTarget, List.getElem?_mapIdx, List.getElem?_mapIdx]
      simp only [rchordPt_writeEdge, lchordPt_writeEdge, writeEdge_length]
      simp only [writeEdge, List.getElem?_mapIdx, hjv]
      have hpw := chord_step_pointwise ks i m j ks[j] (by omega) hj
      simp only [Option.map_map, Option.map_some']
      exact congrArg some hpw
    · have h1 : (chordTarget (writeEdge ks i) (i + 1) m)[j]? = none := by
        rw [List.getElem?_eq_none]
        rw [chordTarget_length, writeEdge_length]
        omega
      have h2 : (chordTarget ks i (m + 1))[j]? = none := by
        rw [List.getElem?_eq_none]
        rw [chordTarget_length]
        omega
      rw [h1, h2]

theorem applyEdges_length : ∀ (m : ℕ) (ks : List (Knot ℝ)) (i : ℕ),
    (applyEdges ks i m).length = ks.length := by
  intro m
  induction m with
  | zero => intro ks i; rfl
  | succ m ih =>
    intro ks i
    have h : applyEdges ks i (m + 1) = applyEdges (writeEdge ks i) (i + 1) m := rfl
    rw [h, ih, writeEdge_length]

theorem applyEdges_frame : ∀ (m : ℕ) (ks : List (Knot ℝ)) (i j : ℕ),
    ((applyEdges ks i m).getD j default).x = (ks.getD j default).x ∧
    ((applyEdges ks i m).getD j default).y = (ks.getD j default).y ∧
    ((applyEdges ks i m).getD j default).left_type = (ks.getD j default).left_type ∧
    ((applyEdges ks i m).getD j default).right_type = (ks.getD j default).right_type := by
  intro m
  induction m with
  | zero => intro ks i j; exact ⟨rfl, rfl, rfl, rfl⟩
  | succ m ih =>
    intro ks i j
    have h : applyEdges ks i (m + 1) = applyEdges (writeEdge ks i) (i + 1) m := rfl
    rw [h]
    obtain ⟨a1, a2, a3, a4⟩ := ih (writeEdge ks i) (i + 1) j
    obtain ⟨b1, b2, b3, b4⟩ := writeEdge_frame ks i j
    exact ⟨a1.trans b1, a2.trans b2, a3.trans b3, a4.trans b4⟩

/-- The loop either stops early after writing the controls of the
edges it visited, or runs through all remaining edges on success. -/
theorem bmLoop_shape : ∀ (fuel : ℕ) (ks : List (Knot ℝ)) (i : ℕ) (dx dy alpha : ℝ),
    ∃ m, m ≤ fuel ∧ (bmLoop ks fuel i dx dy alpha).2 = applyEdges ks i m ∧
      ((bmLoop ks fuel i dx dy alpha).1 = 1 → m = fuel) := by
  intro fuel
  induction fuel with
  | zero =>
    intro ks i dx dy alpha
    refine ⟨0, le_refl 0, ?_, fun _ => rfl⟩
    by_cases h : 2 * Real.pi < alpha <;> simp [bmLoop, h, applyEdges]
  | succ fuel ih =>
    intro ks i dx dy alpha
    by_cases hdup :
        (ks[(i + 1) % ks.length]?.getD default).x - (ks[i]?.getD default).x = 0 ∧
        (ks[(i + 1) % ks.length]?.getD default).y - (ks[i]?.getD default).y = 0
    · refine ⟨1, by omega, ?_, ?_⟩
      · simp [bmLoop, hdup, applyEdges]
      · simp [bmLoop, hdup]
    · by_cases hth : reduce_angle
          (atan2 ((ks[(i + 1) % ks.length]?.getD default).y - (ks[i]?.getD default).y)
            ((ks[(i + 1) % ks.length]?.getD default).x - (ks[i]?.getD default).x) -
            atan2 dy dx) ≤ 0
      · refine ⟨1, by omega, ?_, ?_⟩
        · simp [bmLoop, hdup, hth, applyEdges]
        · simp [bmLoop, hdup, hth]
      · obtain ⟨m, hm, heq, hs⟩ := ih (writeEdge ks i) (i + 1)
          ((ks[(i + 1) % ks.length]?.getD default).x - (ks[i]?.getD default).x)
          ((ks[(i + 1) % ks.length]?.getD default).y - (ks[i]?.getD default).y)
          (alpha + reduce_angle
            (atan2 ((ks[(i + 1) % ks.length]?.getD default).y - (ks[i]?.getD default).y)
              ((ks[(i + 1) % ks.length]?.getD default).x - (ks[i]?.getD default).x) -
              atan2 dy dx))
        refine ⟨m + 1, by omega, ?_, ?_⟩
        · simpa [bmLoop, hdup, hth] using heq
        · intro hc
          have : m = fuel := by
            apply hs
            simpa [bmLoop, hdup, hth] using hc
          omega

/-- C10.  brush_make never changes a position, a side type tag, or
the ring structure (length and order of the list model); its only
writes are the chord control points, and the ring it leaves behind is
the chord-target state of the m edges its loop visited, with m = n
exactly on success. -/
theorem C10_brush_make_frame (ks : List (Knot ℝ)) :
    (brush_make ks).2.length = ks.length ∧
    (∀ j : ℕ,
      (((brush_make ks).2.getD j default).x = (ks.getD j default).x ∧
       ((brush_make ks).2.getD j default).y = (ks.getD j default).y) ∧
      ((brush_make ks).2.getD j default).left_type = (ks.getD j default).left_type ∧
      ((brush_make ks).2.getD j default).right_type = (ks.getD j default).right_type) ∧
    ∃ m, m ≤ ks.length ∧ (brush_make ks).2 = applyEdges ks 0 m ∧
      ((brush_make ks).1 = 1 → m = ks.length) := by
  have hshape : ∃ m, m ≤ ks.length ∧ (brush_make ks).2 = applyEdges ks 0 m ∧
      ((brush_make ks).1 = 1 → m = ks.length) := by
    cases ks with
    | nil => exact ⟨0, le_refl 0, rfl, fun _ => rfl⟩
    | cons k0 rest =>
      by_cases hdup : k0.x - ((k0 :: rest).getLast?.getD default).x = 0 ∧
          k0.y - ((k0 :: rest).getLast?.getD default).y = 0
      · refine ⟨0, by omega, ?_, ?_⟩
        · simp [brush_make, hdup, applyEdges]
        · simp [brush_make, hdup]
      · obtain ⟨m, hm, heq, hs⟩ := bmLoop_shape (k0 :: rest).length (k0 :: rest) 0
          (k0.x - ((k0 :: rest).getLast?.getD default).x)
          (k0.y - ((k0 :: rest).getLast?.getD default).y) 0
        refine ⟨m, hm, ?_, ?_⟩
        · simpa [brush_make, hdup] using heq
        · intro hc
          apply hs
          simpa [brush_make, hdup] using hc
  obtain ⟨m, hm, heq, hs⟩ := hshape
  refine ⟨?_, ?_, m, hm, heq, hs⟩
  · rw [heq, applyEdges_length]
  · intro j
    rw [heq]
    obtain ⟨a1, a2, a3, a4⟩ := applyEdges_frame m ks 0 j
    exact ⟨⟨a1, a2⟩, a3, a4⟩

/-- C2, amended.  After brush_make succeeds on a ring of at least 3
knots, the side control-point payloads of every knot hold the 1/3 and
2/3 chord points of the adjacent edges (right side one third along the
outgoing edge, left side one third back along the incoming edge);
positions and the side type tags are unchanged, so a Regular or Open
tag stays Regular or Open (the C code never touches left_type or
right_type, contrary to the claim that the sides become Explicit). -/
theorem C2_amended (ks : List (Knot ℝ)) (hn : 3 ≤ ks.length)
    (hok : (brush_make ks).1 = 1) (j : ℕ) (hj : j < ks.length) :
    ((brush_make ks).2.getD j default).right_info = rchordPt ks j ∧
    ((brush_make ks).2.getD j default).left_info = lchordPt ks j ∧
    ((brush_make ks).2.getD j default).x = (ks.getD j default).x ∧
    ((brush_make ks).2.getD j default).y = (ks.getD j default).y ∧
    ((brush_make ks).2.getD j default).left_type = (ks.getD j default).left_type ∧
    ((brush_make ks).2.getD j default).right_type = (ks.getD j default).right_type := by
  obtain ⟨-, -, m, hm, heq, hs⟩ := C10_brush_make_frame ks
  have hmn : m = ks.length := hs hok
  subst hmn
  rw [heq, applyEdges_eq_chordTarget _ ks 0 (by omega), chordTarget_getD ks 0 _ j hj]
  have h1 : (0 ≤ j ∧ j < 0 + ks.length) := by omega
  have h2 : ((0 + 1 ≤ j ∧ j ≤ 0 + ks.length) ∨ (j = 0 ∧ 0 + ks.length = ks.length ∧ 1 ≤ ks.length)) := by
    rcases Nat.eq_zero_or_pos j with h | h
    · exact Or.inr ⟨h, by omega, by omega⟩
    · exact Or.inl ⟨by omega, by omega⟩
  rw [if_pos h1, if_pos h2]
  exact ⟨rfl, rfl, rfl, rfl, rfl, rfl⟩

theorem bmLoop_step_go (ks : List (Knot ℝ)) (fuel i : ℕ) (dx dy alpha du dv theta : ℝ)
    (hdu : du = (ks[(i + 1) % ks.length]?.getD default).x - (ks[i]?.getD default).x)
    (hdv : dv = (ks[(i + 1) % ks.length]?.getD default).y - (ks[i]?.getD default).y)
    (hne : ¬ (du = 0 ∧ dv = 0))
    (hth : theta = reduce_angle (atan2 dv du - atan2 dy dx))
    (hpos : ¬ theta ≤ 0) :
    bmLoop ks (fuel + 1) i dx dy alpha =
      bmLoop (writeEdge ks i) fuel (i + 1) du dv (alpha + theta) := by
  subst hdu hdv
  subst hth
  simp [bmLoop, hne, hpos]

theorem bmLoop_zero_ok (ks : List (Knot ℝ)) (i : ℕ) (dx dy alpha : ℝ)
    (h : ¬ 2 * Real.pi < alpha) :
    bmLoop ks 0 i dx dy alpha = (1, ks) := by
  simp [bmLoop, h]

theorem atan2_zero_one : atan2 0 1 = 0 := by
  rw [atan2, if_pos one_pos]
  norm_num

theorem atan2_negone_zero : atan2 (-1) 0 = -(Real.pi / 2) := by
  rw [atan2]
  norm_num

theorem atan2_one_negone : atan2 1 (-1) = 3 * Real.pi / 4 := by
  rw [atan2]
  norm_num [Real.arctan_one]
  ring

/-- Concrete pen candidate: CCW triangle (0,0), (1,0), (0,1) with all
side descriptors Open. -/
noncomputable def c2k1 : Knot ℝ := ⟨0, 0, ⟨0, 0⟩, ⟨0, 0⟩, kt_open, kt_open⟩

/-- Second knot of the concrete triangle pen. -/
noncomputable def c2k2 : Knot ℝ := ⟨1, 0, ⟨0, 0⟩, ⟨0, 0⟩, kt_open, kt_open⟩

/-- Third knot of the concrete triangle pen. -/
noncomputable def c2k3 : Knot ℝ := ⟨0, 1, ⟨0, 0⟩, ⟨0, 0⟩, kt_open, kt_open⟩

/-- The concrete triangle pen ring. -/
noncomputable def c2tri : List (Knot ℝ) := [c2k1, c2k2, c2k3]

/-- The triangle ring after the first edge write. -/
noncomputable def c2triA : List (Knot ℝ) :=
  [⟨0, 0, ⟨0, 0⟩, ⟨1/3, 0⟩, kt_open, kt_open⟩,
   ⟨1, 0, ⟨2/3, 0⟩, ⟨0, 0⟩, kt_open, kt_open⟩,
   ⟨0, 1, ⟨0, 0⟩, ⟨0, 0⟩, kt_open, kt_open⟩]

/-- The triangle ring after the second edge write. -/
noncomputable def c2triB : List (Knot ℝ) :=
  [⟨0, 0, ⟨0, 0⟩, ⟨1/3, 0⟩, kt_open, kt_open⟩,
   ⟨1, 0, ⟨2/3, 0⟩, ⟨2/3, 1/3⟩, kt_open, kt_open⟩,
   ⟨0, 1, ⟨1/3, 2/3⟩, ⟨0, 0⟩, kt_open, kt_open⟩]

/-- The triangle ring brush_make returns: all chord controls written,
all type tags still Open. -/
noncomputable def c2triOut : List (Knot ℝ) :=
  [⟨0, 0, ⟨0, 1/3⟩, ⟨1/3, 0⟩, kt_open, kt_open⟩,
   ⟨1, 0, ⟨2/3, 0⟩, ⟨2/3, 1/3⟩, kt_open, kt_open⟩,
   ⟨0, 1, ⟨1/3, 2/3⟩, ⟨0, 2/3⟩, kt_open, kt_open⟩]

theorem c2tri_eval : brush_make c2tri = (1, c2triOut) := by
  have hpi := Real.pi_pos
  have e1 : writeEdge c2tri 0 = c2triA := by
    norm_num [writeEdge, c2tri, c2triA, c2k1, c2k2, c2k3,
      List.mapIdx_cons, List.mapIdx_nil]
  have e2 : writeEdge c2triA 1 = c2triB := by
    norm_num [writeEdge, c2triA, c2triB, List.mapIdx_cons, List.mapIdx_nil]
  have e3 : writeEdge c2triB 2 = c2triOut := by
    norm_num [writeEdge, c2triB, c2triOut, List.mapIdx_cons, List.mapIdx_nil]
  have th1 : reduce_angle (atan2 0 1 - atan2 (-1) 0) = Real.pi / 2 := by
    rw [atan2_zero_one, atan2_negone_zero, reduce_angle]
    rw [if_neg (by linarith), if_neg (by linarith)]
    ring
  have th2 : reduce_angle (atan2 1 (-1) - atan2 0 1) = 3 * Real.pi / 4 := by
    rw [atan2_one_negone, atan2_zero_one, reduce_angle]
    rw [if_neg (by linarith), if_neg (by linarith)]
    ring
  have th3 : reduce_angle (atan2 (-1) 0 - atan2 1 (-1)) = 3 * Real.pi / 4 := by
    rw [atan2_negone_zero, atan2_one_negone, reduce_angle]
    rw [if_neg (by linarith), if_pos (by linarith)]
    ring
  have s0 : brush_make c2tri = bmLoop c2tri 3 0 0 (-1) 0 := by
    norm_num [brush_make, c2tri, c2k1, c2k2, c2k3]
  have s1 : bmLoop c2tri 3 0 0 (-1) 0 =
      bmLoop c2triA 2 1 1 0 (0 + Real.pi / 2) := by
    have h := bmLoop_step_go c2tri 2 0 0 (-1) 0 1 0 (Real.pi / 2)
      (by norm_num [c2tri, c2k1, c2k2]) (by norm_num [c2tri, c2k1, c2k2])
      (by norm_num) (by rw [← th1]) (by linarith)
    rw [e1] at h
    exact h
  have s2 : bmLoop c2triA 2 1 1 0 (0 + Real.pi / 2) =
      bmLoop c2triB 1 2 (-1) 1 (0 + Real.pi / 2 + 3 * Real.pi / 4) := by
    have h := bmLoop_step_go c2triA 1 1 1 0 (0 + Real.pi / 2) (-1) 1 (3 * Real.pi / 4)
      (by norm_num [c2triA]) (by norm_num [c2triA])
      (by norm_num) (by rw [← th2]) (by linarith)
    rw [e2] at h
    exact h
  have s3 : bmLoop c2triB 1 2 (-1) 1 (0 + Real.pi / 2 + 3 * Real.pi / 4) =
      bmLoop c2triOut 0 3 0 (-1)
        (0 + Real.pi / 2 + 3 * Real.pi / 4 + 3 * Real.pi / 4) := by
    have h := bmLoop_step_go c2triB 0 2 (-1) 1 (0 + Real.pi / 2 + 3 * Real.pi / 4) 0 (-1)
      (3 * Real.pi / 4)
      (by norm_num [c2triB]) (by norm_num [c2triB])
      (by norm_num) (by rw [← th3]) (by linarith)
    rw [e3] at h
    exact h
  have s4 : bmLoop c2triOut 0 3 0 (-1)
      (0 + Real.pi / 2 + 3 * Real.pi / 4 + 3 * Real.pi / 4) = (1, c2triOut) :=
    bmLoop_zero_ok _ _ _ _ _ (by intro h; nlinarith)
  rw [s0, s1, s2, s3, s4]

/-- C2, counterexample.  brush_make succeeds on the all-Open CCW
triangle (0,0), (1,0), (0,1), yet the left side of the first knot is
still Open, not Explicit: the code writes only the control-point
payloads, never the side type tags. -/
theorem C2_counterexample :
    (brush_make c2tri).1 = 1 ∧ 3 ≤ c2tri.length ∧
      ((brush_make c2tri).2.getD 0 default).left_type ≠ kt_explicit := by
  rw [c2tri_eval]
  refine ⟨rfl, by norm_num [c2tri], ?_⟩
  have h : (((1 : Int), c2triOut).2.getD 0 default).left_type = kt_open := by
    norm_num [c2triOut]
  rw [h]
  decide

/-- C2, witness: the amended statement applied to the concrete
triangle pen at knot index 0. -/
theorem C2_witness :
    ((brush_make c2tri).2.getD 0 default).right_info = rchordPt c2tri 0 ∧
    ((brush_make c2tri).2.getD 0 default).left_info = lchordPt c2tri 0 ∧
    ((brush_make c2tri).2.getD 0 default).x = (c2tri.getD 0 default).x ∧
    ((brush_make c2tri).2.getD 0 default).y = (c2tri.getD 0 default).y ∧
    ((brush_make c2tri).2.getD 0 default).left_type = (c2tri.getD 0 default).left_type ∧
    ((brush_make c2tri).2.getD 0 default).right_type = (c2tri.getD 0 default).right_type :=
  C2_amended c2tri (by norm_num [c2tri]) (by rw [c2tri_eval]) 0 (by norm_num [c2tri])

/-- A knot of the duplicate-closing-point collinear pen, position
(0,0). -/
noncomputable def c3k1 : Knot ℝ := ⟨0, 0, ⟨0, 0⟩, ⟨3/10, 0⟩, kt_explicit, kt_explicit⟩

/-- Second knot, position (1,0). -/
noncomputable def c3k2 : Knot ℝ := ⟨1, 0, ⟨7/10, 0⟩, ⟨13/10, 0⟩, kt_explicit, kt_explicit⟩

/-- Third knot, position (2,0). -/
noncomputable def c3k3 : Knot ℝ := ⟨2, 0, ⟨17/10, 0⟩, ⟨7/5, 0⟩, kt_explicit, kt_explicit⟩

/-- Fourth knot: the closing point duplicating the first, position
(0,0). -/
noncomputable def c3k4 : Knot ℝ := ⟨0, 0, ⟨3/5, 0⟩, ⟨0, 0⟩, kt_explicit, kt_explicit⟩

/-- The pen ring built from (0,0), (1,0), (2,0) and then (0,0) back
to the start: four knots, the last duplicating the first. -/
noncomputable def c3ring : List (Knot ℝ) := [c3k1, c3k2, c3k3, c3k4]

theorem c3ring_eval : brush_make c3ring = (-1, c3ring) := by
  norm_num [brush_make, c3ring, c3k1, c3k2, c3k3, c3k4]

/-- C3, counterexample.  On the four-knot collinear ring closed by a
duplicate of the start point, brush_make does not return NonLeftTurn:
the initial duplicate-point check on the edge from the predecessor of
the entry knot fires first. -/
theorem C3_counterexample : (brush_make c3ring).1 ≠ -2 := by
  rw [c3ring_eval]
  decide

/-- C3, amended.  brush_make returns DuplicatePoint (-1) on this ring:
the zero-length closing edge is caught by the initial duplicate check,
before any collinearity angle is computed, and no control point is
written. -/
theorem C3_amended : brush_make c3ring = (-1, c3ring) := c3ring_eval

/-! split_at_tees of brush.c with its helpers: inflection_tees,
pen_tees, solve_bezier, cubic_split, and the filter-sort-split walk.
The tee stack is modelled as the list of pushed values; sort_tees is
modelled by insertion sort (the C quicksort's observable output, the
ascending reordering of the stack values, is the same list). -/

/-- solve_bezier of brush.c: roots of the degree-2 Bernstein form
u (1-t)^2 + 2 v t (1-t) + w t^2, via solve_quadratic with B = v - u
passed in the B = -b/2 convention. -/
noncomputable def solve_bezier (u v w : ℝ) : List ℝ :=
  solve_quadratic (u - v - v + w) (u - v) u

/-- inflection_tees of brush.c: translate the segment so p is the
origin, rotate its chord onto the positive x axis (ROR_X and ROR_Y
with the unit chord direction), form a = x1 y0, b = x2 y0, c = x0 y1,
d = x2 y1 from the rotated control offsets and solve the inflection
quadratic.  hypot is sqrt of the sum of squares. -/
noncomputable def inflection_tees (p q : Knot ℝ) : List ℝ :=
  let x1 := p.right_info.x - p.x
  let y1 := p.right_info.y - p.y
  let x2 := q.left_info.x - p.x
  let y2 := q.left_info.y - p.y
  let x3 := q.x - p.x
  let y3 := q.y - p.y
  let m := Real.sqrt (x3 * x3 + y3 * y3)
  let t0 := x3 / m
  let t1 := y3 / m
  let rx0 := x1 * t0 + y1 * t1
  let ry0 := y1 * t0 - x1 * t1
  let rx1 := x2 * t0 + y2 * t1
  let ry1 := y2 * t0 - x2 * t1
  let rx2 := x3 * t0 + y3 * t1
  let a := rx1 * ry0
  let b := rx2 * ry0
  let c := rx0 * ry1
  let d := rx2 * ry1
  solve_quadratic (18 * (-3 * a + 2 * b + 3 * c - d)) (9 * (-3 * a + b + 3 * c))
    (18 * (c - a))

/-- First Bernstein coefficient of the pen-slope polynomial of a
segment against an edge direction: y0 dx - x0 dy with (x0,y0) the
first derivative control point. -/
noncomputable def penT0 (p q : Knot ℝ) (dx dy : ℝ) : ℝ :=
  (p.right_info.y - p.y) * dx - (p.right_info.x - p.x) * dy

/-- Second Bernstein coefficient of the pen-slope polynomial. -/
noncomputable def penT1 (p q : Knot ℝ) (dx dy : ℝ) : ℝ :=
  (q.left_info.y - p.right_info.y) * dx - (q.left_info.x - p.right_info.x) * dy

/-- Third Bernstein coefficient of the pen-slope polynomial. -/
noncomputable def penT2 (p q : Knot ℝ) (dx dy : ℝ) : ℝ :=
  (q.y - q.left_info.y) * dx - (q.x - q.left_info.x) * dy

/-- pen_tees of brush.c: for every pen edge r to succ r, in ring
order, the roots of the slope-match Bernstein quadratic are pushed.
The disabled diagonal, horizontal and vertical splits of the source
are commented out there and not modelled. -/
noncomputable def pen_tees (p q : Knot ℝ) (pen : List (Knot ℝ)) : List ℝ :=
  (pen.zip (pen.rotate 1)).foldl (fun acc e =>
    acc ++ solve_bezier (penT0 p q (e.2.x - e.1.x) (e.2.y - e.1.y))
      (penT1 p q (e.2.x - e.1.x) (e.2.y - e.1.y))
      (penT2 p q (e.2.x - e.1.x) (e.2.y - e.1.y))) []

/-- t_of_the_way of brush.c. -/
noncomputable def t_of_the_way (t a b : ℝ) : ℝ := a + t * (b - a)

/-- cubic_split of brush.c: the de Casteljau split of the segment
from p to q at parameter t.  Returns the updated p (right control
truncated), the new middle knot with Explicit sides, and the updated
q (left control truncated); the C code inserts the middle knot
between p and q in place. -/
noncomputable def cubic_split (p q : Knot ℝ) (t : ℝ) : Knot ℝ × Knot ℝ × Knot ℝ :=
  let u0 := t_of_the_way t p.x p.right_info.x
  let u1 := t_of_the_way t p.right_info.x q.left_info.x
  let u2 := t_of_the_way t q.left_info.x q.x
  let v0 := t_of_the_way t u0 u1
  let v1 := t_of_the_way t u1 u2
  let w0 := t_of_the_way t v0 v1
  let a0 := t_of_the_way t p.y p.right_info.y
  let a1 := t_of_the_way t p.right_info.y q.left_info.y
  let a2 := t_of_the_way t q.left_info.y q.y
  let b0 := t_of_the_way t a0 a1
  let b1 := t_of_the_way t a1 a2
  let c0 := t_of_the_way t b0 b1
  ({ p with right_info := ⟨u0, a0⟩ },
   ⟨w0, c0, ⟨v0, b0⟩, ⟨v1, b1⟩, kt_explicit, kt_explicit⟩,
   { q with left_info := ⟨u2, a2⟩ })

/-- Insertion into a sorted list of tees. -/
noncomputable def insertSorted (x : ℝ) : List ℝ → List ℝ
  | [] => [x]
  | y :: ys => if x ≤ y then x :: y :: ys else y :: insertSorted x ys

/-- sort_tees of brush.c: ascending reordering of the tee stack. -/
noncomputable def sort_tees (l : List ℝ) : List ℝ := l.foldr insertSorted []

/-- The split walk of split_at_tees over one segment: walk the sorted
tees, skipping duplicates of the previous split position s, otherwise
splitting the current sub-segment at the renormalized parameter
(x - s) / (1 - s).  Returns the chain of knots replacing p (p and the
inserted middle knots) together with the updated end knot. -/
noncomputable def splitWalk : Knot ℝ → Knot ℝ → ℝ → List ℝ → List (Knot ℝ) × Knot ℝ
  | p, q, _, [] => ([p], q)
  | p, q, s, x :: rest =>
    if s = x then splitWalk p q s rest
    else
      let pr := cubic_split p q ((x - s) / (1 - s))
      let lq := splitWalk pr.2.1 pr.2.2 x rest
      (pr.1 :: lq.1, lq.2)

/-- One segment of split_at_tees: collect raw tees (inflections then
pen slopes), drop the ones outside the open unit interval (the C
filter compacts the stack by swapping in the last entry, which can
only reorder it), sort when more than one remains, then run the split
walk from s = 0. -/
noncomputable def splitSegment (p q : Knot ℝ) (pen : List (Knot ℝ)) :
    List (Knot ℝ) × Knot ℝ :=
  let raw := inflection_tees p q ++ pen_tees p q pen
  let fil := raw.filter (fun m => decide (0 < m) && decide (m < 1))
  splitWalk p q 0 (if 1 < fil.length then sort_tees fil else fil)

/-- The tail of the outer do-while of split_at_tees: process the
segment from p to the next knot, stop on a Regular right side, wrap
onto the entry knot (hcur, threaded through) when the ring runs out. -/
noncomputable def satGo (pen : List (Knot ℝ)) :
    Knot ℝ → List (Knot ℝ) → Knot ℝ → List (Knot ℝ) × Knot ℝ
  | p, [], hcur => splitSegment p hcur pen
  | p, q :: rest, hcur =>
    let cq := splitSegment p q pen
    if cq.2.right_type = kt_regular then (cq.1 ++ cq.2 :: rest, hcur)
    else
      let lh := satGo pen cq.2 rest hcur
      (cq.1 ++ lh.1, lh.2)

/-- split_at_tees of brush.c on the list-of-knots ring model.  The
do-while always processes the first segment, then walks on while the
reached knot is not the entry knot and has no Regular right side; on
the cyclic wrap the final segment ends at the (already updated) entry
knot, whose new value heads the returned ring.  A one-knot ring, whose
single segment aliases p and q, is left untouched. -/
noncomputable def split_at_tees (ks pen : List (Knot ℝ)) : List (Knot ℝ) :=
  match ks with
  | [] => []
  | [k] => [k]
  | k0 :: q :: rest =>
    let cq := splitSegment k0 q pen
    if cq.2.right_type = kt_regular then cq.1 ++ cq.2 :: rest
    else
      let lh := satGo pen cq.2 rest (cq.1.headD k0)
      lh.2 :: (cq.1.tail ++ lh.1)

/-- The cubic blossom (polar form) in nested de Casteljau shape: the
symmetric trilinear form whose diagonal is the Bezier cubic with
control values g0, g1, g2, g3. -/
noncomputable def blossom (g0 g1 g2 g3 a b c : ℝ) : ℝ :=
  t_of_the_way c (t_of_the_way b (t_of_the_way a g0 g1) (t_of_the_way a g1 g2))
    (t_of_the_way b (t_of_the_way a g1 g2) (t_of_the_way a g2 g3))

/-- Blossom of the x coordinates of the segment from p0 to q0. -/
noncomputable def bX (p0 q0 : Knot ℝ) (a b c : ℝ) : ℝ :=
  blossom p0.x p0.right_info.x q0.left_info.x q0.x a b c

/-- Blossom of the y coordinates of the segment from p0 to q0. -/
noncomputable def bY (p0 q0 : Knot ℝ) (a b c : ℝ) : ℝ :=
  blossom p0.y p0.right_info.y q0.left_info.y q0.y a b c

/-- The segment from p to q is the de Casteljau restriction of the
segment from p0 to q0 to the parameter interval from s to e: its four
control values per axis are the blossom values at (s,s,s), (s,s,e),
(s,e,e), (e,e,e). -/
def seg_restricts (p0 q0 p q : Knot ℝ) (s e : ℝ) : Prop :=
  p.x = bX p0 q0 s s s ∧ p.y = bY p0 q0 s s s ∧
  p.right_info.x = bX p0 q0 s s e ∧ p.right_info.y = bY p0 q0 s s e ∧
  q.left_info.x = bX p0 q0 s e e ∧ q.left_info.y = bY p0 q0 s e e ∧
  q.x = bX p0 q0 e e e ∧ q.y = bY p0 q0 e e e

/-- Splitting a restriction to the interval from s to 1 at the
renormalized parameter t yields the restrictions to the two parameter
subintervals split at x = s + t (1 - s). -/
theorem cubic_split_restricts (p0 q0 p q : Knot ℝ) (s t x : ℝ)
    (hx : x = s + t * (1 - s))
    (h : seg_restricts p0 q0 p q s 1) :
    seg_restricts p0 q0 (cubic_split p q t).1 (cubic_split p q t).2.1 s x ∧
    seg_restricts p0 q0 (cubic_split p q t).2.1 (cubic_split p q t).2.2 x 1 := by
  obtain ⟨h1, h2, h3, h4, h5, h6, h7, h8⟩ := h
  subst hx
  refine ⟨⟨?_, ?_, ?_, ?_, ?_, ?_, ?_, ?_⟩, ?_, ?_, ?_, ?_, ?_, ?_, ?_, ?_⟩ <;>
    simp only [cubic_split, h1, h2, h3, h4, h5, h6, h7, h8, bX, bY, blossom,
      t_of_the_way] <;> ring

/-- The split positions the walk accepts: duplicates of the previous
split position are skipped, every other tee becomes a split. -/
noncomputable def acceptedTees : ℝ → List ℝ → List ℝ
  | _, [] => []
  | s, x :: rest => if s = x then acceptedTees s rest else x :: acceptedTees x rest

/-- The chain produced by the walk, knot c_i starting the restriction
to the interval from x_i to x_(i+1), the last one ending at the
segment end knot with parameter 1. -/
def chainRestricts (p0 q0 : Knot ℝ) : List (Knot ℝ) → Knot ℝ → List ℝ → Prop
  | [c], qk, [x] => seg_restricts p0 q0 c qk x 1
  | c1 :: c2 :: cs, qk, x1 :: x2 :: xs =>
    seg_restricts p0 q0 c1 c2 x1 x2 ∧ chainRestricts p0 q0 (c2 :: cs) qk (x2 :: xs)
  | _, _, _ => False

/-- k agrees with p on everything except possibly the right control. -/
def head_agrees (p k : Knot ℝ) : Prop :=
  k.x = p.x ∧ k.y = p.y ∧ k.left_info = p.left_info ∧
  k.left_type = p.left_type ∧ k.right_type = p.right_type

/-- k agrees with q on everything except possibly the left control. -/
def end_agrees (q k : Knot ℝ) : Prop :=
  k.x = q.x ∧ k.y = q.y ∧ k.right_info = q.right_info ∧
  k.left_type = q.left_type ∧ k.right_type = q.right_type

theorem chainRestricts_ne_nil (p0 q0 : Knot ℝ) (l : List (Knot ℝ)) (qk : Knot ℝ)
    (xs : List ℝ) (h : chainRestricts p0 q0 l qk xs) : l ≠ [] := by
  intro hl
  subst hl
  cases xs with
  | nil => exact h
  | cons a t => cases t <;> exact h

theorem chainRestricts_length (p0 q0 : Knot ℝ) :
    ∀ (l : List (Knot ℝ)) (qk : Knot ℝ) (xs : List ℝ),
      chainRestricts p0 q0 l qk xs → l.length = xs.length := by
  intro l
  induction l with
  | nil => intro qk xs h; exact absurd rfl (chainRestricts_ne_nil p0 q0 [] qk xs h)
  | cons c cs ih =>
    intro qk xs h
    cases cs with
    | nil =>
      cases xs with
      | nil => exact absurd h (by simp [chainRestricts])
      | cons x xt =>
        cases xt with
        | nil => rfl
        | cons y yt => exact absurd h (by simp [chainRestricts])
    | cons c2 cs2 =>
      cases xs with
      | nil => exact absurd h (by simp [chainRestricts])
      | cons x xt =>
        cases xt with
        | nil => exact absurd h (by simp [chainRestricts])
        | cons y yt =>
          obtain ⟨-, h2⟩ := h
          have := ih qk (y :: yt) h2
          simpa using this

/-- The split walk produces the chain of consecutive restrictions at
the accepted split positions; the head keeps everything of p but its
right control, the returned end knot keeps everything of q but its
left control, and all inserted knots have Explicit sides. -/
theorem splitWalk_spec (p0 q0 : Knot ℝ) :
    ∀ (tees : List ℝ) (p q : Knot ℝ) (s : ℝ),
      seg_restricts p0 q0 p q s 1 → s < 1 → (∀ x ∈ tees, x < 1) →
      chainRestricts p0 q0 (splitWalk p q s tees).1 (splitWalk p q s tees).2
        (s :: acceptedTees s tees) ∧
      head_agrees p ((splitWalk p q s tees).1.headD p) ∧
      end_agrees q (splitWalk p q s tees).2 ∧
      (∀ k ∈ (splitWalk p q s tees).1.tail,
        k.left_type = kt_explicit ∧ k.right_type = kt_explicit) := by
  intro tees
  induction tees with
  | nil =>
    intro p q s h hs _
    refine ⟨?_, ?_, ?_, ?_⟩
    · simpa [splitWalk, acceptedTees, chainRestricts] using h
    · exact ⟨rfl, rfl, rfl, rfl, rfl⟩
    · exact ⟨rfl, rfl, rfl, rfl, rfl⟩
    · intro k hk
      simp [splitWalk] at hk
  | cons x rest ih =>
    intro p q s h hs hlt
    by_cases hsx : s = x
    · have hrw : splitWalk p q s (x :: rest) = splitWalk p q s rest := by
        simp [splitWalk, hsx]
      have hacc : acceptedTees s (x :: rest) = acceptedTees s rest := by
        simp [acceptedTees, hsx]
      rw [hrw, hacc]
      exact ih p q s h hs (fun y hy => hlt y (by simp [hy]))
    · have hx1 : x < 1 := hlt x (by simp)
      have hse : (1 : ℝ) - s ≠ 0 := by intro hc; nlinarith
      have hx : x = s + (x - s) / (1 - s) * (1 - s) := by field_simp
      obtain ⟨R1, R2⟩ := cubic_split_restricts p0 q0 p q s ((x - s) / (1 - s)) x hx h
      obtain ⟨CH, HA, EA, TL⟩ := ih (cubic_split p q ((x - s) / (1 - s))).2.1
        (cubic_split p q ((x - s) / (1 - s))).2.2 x R2 hx1
        (fun y hy => hlt y (by simp [hy]))
      have hrw : splitWalk p q s (x :: rest) =
          ((cubic_split p q ((x - s) / (1 - s))).1 ::
            (splitWalk (cubic_split p q ((x - s) / (1 - s))).2.1
              (cubic_split p q ((x - s) / (1 - s))).2.2 x rest).1,
           (splitWalk (cubic_split p q ((x - s) / (1 - s))).2.1
              (cubic_split p q ((x - s) / (1 - s))).2.2 x rest).2) := by
        simp [splitWalk, hsx]
      have hacc : acceptedTees s (x :: rest) = x :: acceptedTees x rest := by
        simp [acceptedTees, hsx]
      rw [hrw, hacc]
      obtain ⟨c, cs, hcs⟩ :=
        List.exists_cons_of_ne_nil (chainRestricts_ne_nil p0 q0 _ _ _ CH)
      rw [hcs] at CH HA TL ⊢
      simp only [List.headD_cons] at HA
      refine ⟨?_, ?_, EA, ?_⟩
      · refine ⟨?_, CH⟩
        obtain ⟨e1, e2, e3, e4, e5⟩ := HA
        obtain ⟨r1, r2, r3, r4, r5, r6, r7, r8⟩ := R1
        exact ⟨r1, r2, r3, r4, by rw [e3]; exact r5, by rw [e3]; exact r6,
          by rw [e1]; exact r7, by rw [e2]; exact r8⟩
      · exact ⟨rfl, rfl, rfl, rfl, rfl⟩
      · intro k hk
        simp only [List.tail_cons] at hk
        rcases List.mem_cons.mp hk with rfl | hk2
        · obtain ⟨-, -, -, e4, e5⟩ := HA
          exact ⟨e4, e5⟩
        · exact TL k (by simp [hk2])

/-! ### C7: the inflection-split scenario

Path: the single cubic from (0,0) to (10,0) with explicit controls
(0,10) and (10,-10), drawn as a two-knot ring whose end knot carries
the Regular right side that stops the split walk.  Pen: the validated
unit square of the end-to-end scenarios, corners (1/2,1/2),
(-1/2,1/2), (-1/2,-1/2), (1/2,-1/2) with the 1/3-chord controls
brush_make writes (pen_tees only reads the corner positions). -/

noncomputable def c7p : Knot ℝ := ⟨0, 0, ⟨0, 0⟩, ⟨0, 10⟩, kt_open, kt_explicit⟩

noncomputable def c7q : Knot ℝ := ⟨10, 0, ⟨10, -10⟩, ⟨0, 0⟩, kt_explicit, kt_regular⟩

noncomputable def c7path : List (Knot ℝ) := [c7p, c7q]

noncomputable def c7r1 : Knot ℝ :=
  ⟨1/2, 1/2, ⟨1/2, 1/6⟩, ⟨1/6, 1/2⟩, kt_explicit, kt_explicit⟩

noncomputable def c7r2 : Knot ℝ :=
  ⟨-1/2, 1/2, ⟨-1/6, 1/2⟩, ⟨-1/2, 1/6⟩, kt_explicit, kt_explicit⟩

noncomputable def c7r3 : Knot ℝ :=
  ⟨-1/2, -1/2, ⟨-1/2, -1/6⟩, ⟨-1/6, -1/2⟩, kt_explicit, kt_explicit⟩

noncomputable def c7r4 : Knot ℝ :=
  ⟨1/2, -1/2, ⟨1/6, -1/2⟩, ⟨1/2, -1/6⟩, kt_explicit, kt_explicit⟩

noncomputable def c7pen : List (Knot ℝ) := [c7r1, c7r2, c7r3, c7r4]

/-- The smaller pen-slope root 10 / (30 + sqrt 300). -/
noncomputable def c7A : ℝ := 10 / (30 + Real.sqrt 300)

/-- The larger pen-slope root (30 + sqrt 300) / 60. -/
noncomputable def c7B : ℝ := (30 + Real.sqrt 300) / 60

theorem s300_pos : 0 < Real.sqrt 300 := Real.sqrt_pos.mpr (by norm_num)

theorem s300_lt30 : Real.sqrt 300 < 30 := by
  rw [show (30:ℝ) = Real.sqrt 900 by
    rw [show (900:ℝ) = 30^2 by norm_num, Real.sqrt_sq (by norm_num)]]
  exact Real.sqrt_lt_sqrt (by norm_num) (by norm_num)

theorem c7A_pos : 0 < c7A :=
  div_pos (by norm_num) (by nlinarith [s300_pos])

theorem c7A_lt_half : c7A < 1/2 := by
  rw [c7A, div_lt_iff (by nlinarith [s300_pos])]
  nlinarith [s300_pos]

theorem c7B_lt_one : c7B < 1 := by
  rw [c7B, div_lt_one (by norm_num)]
  nlinarith [s300_lt30]

theorem half_lt_c7B : 1/2 < c7B := by
  rw [c7B, lt_div_iff (by norm_num)]
  nlinarith [s300_pos]

theorem c7A_lt_c7B : c7A < c7B := c7A_lt_half.trans half_lt_c7B

/-- solve_quadratic in the two-real-root branch with negative B. -/
theorem solve_quadratic_negb (a b c : ℝ) (ha : a ≠ 0) (hc : c ≠ 0) (hb : b < 0)
    (hd : 0 < b * b - a * c) :
    solve_quadratic a b c =
      [c / (b - Real.sqrt (b * b - a * c)), (b - Real.sqrt (b * b - a * c)) / a] := by
  rw [solve_quadratic, if_neg ha, if_neg hc]
  have h2 : ¬ (b * b - a * c < 0) := not_lt.mpr hd.le
  have h3 : Real.sqrt (b * b - a * c) ≠ 0 := ne_of_gt (Real.sqrt_pos.mpr hd)
  simp only [if_neg h2, if_neg h3, if_pos hb]

/-- solve_quadratic in the two-real-root branch with nonnegative B. -/
theorem solve_quadratic_posb (a b c : ℝ) (ha : a ≠ 0) (hc : c ≠ 0) (hb : ¬ b < 0)
    (hd : 0 < b * b - a * c) :
    solve_quadratic a b c =
      [c / (b + Real.sqrt (b * b - a * c)), (b + Real.sqrt (b * b - a * c)) / a] := by
  rw [solve_quadratic, if_neg ha, if_neg hc]
  have h2 : ¬ (b * b - a * c < 0) := not_lt.mpr hd.le
  have h3 : Real.sqrt (b * b - a * c) ≠ 0 := ne_of_gt (Real.sqrt_pos.mpr hd)
  simp only [if_neg h2, if_neg h3, if_neg hb]

/-- The pen edge (1/2,1/2) to (-1/2,1/2): Bernstein values -10, 20, -10. -/
theorem c7_edge1 : solve_bezier (-10) 20 (-10) = [c7A, c7B] := by
  have h := solve_quadratic_negb (-60) (-30) (-10) (by norm_num) (by norm_num)
    (by norm_num) (by norm_num)
  rw [show ((-30:ℝ) * (-30) - (-60) * (-10)) = 300 by norm_num] at h
  have hd1 : (-30:ℝ) - Real.sqrt 300 ≠ 0 := by nlinarith [s300_pos]
  have hd2 : (30:ℝ) + Real.sqrt 300 ≠ 0 := by nlinarith [s300_pos]
  have e1 : (-10:ℝ) / (-30 - Real.sqrt 300) = c7A := by
    rw [c7A, div_eq_div_iff hd1 hd2]
    ring
  have e2 : ((-30:ℝ) - Real.sqrt 300) / (-60) = c7B := by
    rw [c7B, div_eq_div_iff (by norm_num) (by norm_num)]
    ring
  rw [show solve_bezier (-10) 20 (-10) = solve_quadratic (-60) (-30) (-10) by
    rw [solve_bezier]; norm_num]
  rw [h, e1, e2]

/-- The pen edge (-1/2,1/2) to (-1/2,-1/2): Bernstein values 0, 10, 0. -/
theorem c7_edge2 : solve_bezier 0 10 0 = [0, 1] := by
  rw [show solve_bezier 0 10 0 = solve_quadratic (-20) (-10) 0 by
    rw [solve_bezier]; norm_num]
  rw [solve_quadratic, if_neg (by norm_num : (-20:ℝ) ≠ 0), if_pos rfl,
    if_pos (by norm_num : (-10:ℝ) ≠ 0)]
  norm_num

/-- The pen edge (-1/2,-1/2) to (1/2,-1/2): Bernstein values 10, -20, 10. -/
theorem c7_edge3 : solve_bezier 10 (-20) 10 = [c7A, c7B] := by
  have h := solve_quadratic_posb 60 30 10 (by norm_num) (by norm_num)
    (by norm_num) (by norm_num)
  rw [show ((30:ℝ) * 30 - 60 * 10) = 300 by norm_num] at h
  rw [show solve_bezier 10 (-20) 10 = solve_quadratic 60 30 10 by
    rw [solve_bezier]; norm_num]
  rw [h, c7A, c7B]

/-- The pen edge (1/2,-1/2) to (1/2,1/2): Bernstein values 0, -10, 0. -/
theorem c7_edge4 : solve_bezier 0 (-10) 0 = [0, 1] := by
  rw [show solve_bezier 0 (-10) 0 = solve_quadratic 20 10 0 by
    rw [solve_bezier]; norm_num]
  rw [solve_quadratic, if_neg (by norm_num : (20:ℝ) ≠ 0), if_pos rfl,
    if_pos (by norm_num : (10:ℝ) ≠ 0)]
  norm_num

/-- The inflection quadratic of the scenario cubic degenerates to the
linear case with the single root one half. -/
theorem c7_infl : inflection_tees c7p c7q = [1/2] := by
  have h2 : Real.sqrt 100 = 10 := by
    rw [show (100:ℝ) = 10^2 by norm_num, Real.sqrt_sq (by norm_num)]
  norm_num [inflection_tees, c7p, c7q, h2, solve_quadratic]

theorem c7_rot : c7pen.rotate 1 = [c7r2, c7r3, c7r4, c7r1] := by
  simp [c7pen, List.rotate]

/-- pen_tees of the scenario cubic against the unit square pen: the
two horizontal edges contribute the root pair, the two vertical edges
contribute the boundary roots 0 and 1. -/
theorem c7_pen : pen_tees c7p c7q c7pen = [c7A, c7B, 0, 1, c7A, c7B, 0, 1] := by
  rw [pen_tees, c7_rot]
  simp only [c7pen, List.zip_cons_cons, List.zip_nil_right, List.foldl_cons,
    List.foldl_nil]
  norm_num [penT0, penT1, penT2, c7p, c7q, c7r1, c7r2, c7r3, c7r4,
    c7_edge1, c7_edge2, c7_edge3, c7_edge4]

/-- The unit-interval filter keeps the inflection root and the two
interior pen roots of each horizontal edge. -/
theorem c7_fil :
    ([(1:ℝ)/2, c7A, c7B, 0, 1, c7A, c7B, 0, 1].filter
      (fun m => decide (0 < m) && decide (m < 1))) = [1/2, c7A, c7B, c7A, c7B] := by
  norm_num [List.filter_cons, c7A_pos, c7A_lt_half.trans (by norm_num : (1:ℝ)/2 < 1),
    c7B_lt_one, c7A_pos.trans c7A_lt_c7B]

/-- Ascending reordering of the filtered tee stack. -/
theorem c7_sort : sort_tees [(1:ℝ)/2, c7A, c7B, c7A, c7B] = [c7A, c7A, 1/2, c7B, c7B] := by
  have hh : ((2:ℝ)⁻¹) = 1/2 := by norm_num
  have h1 : ¬ ((2:ℝ)⁻¹ ≤ c7A) := by rw [hh]; exact not_le.mpr c7A_lt_half
  have h2 : ((2:ℝ)⁻¹) ≤ c7B := by rw [hh]; exact half_lt_c7B.le
  have h3 : c7A ≤ c7B := c7A_lt_c7B.le
  have h4 : ¬ (c7B ≤ c7A) := not_le.mpr c7A_lt_c7B
  simp [sort_tees, insertSorted, h1, h2, h3, h4]

/-- The split walk accepts each distinct sorted tee once. -/
theorem c7_acc : acceptedTees 0 [c7A, c7A, (1:ℝ)/2, c7B, c7B] = [c7A, 1/2, c7B] := by
  have hh : ((2:ℝ)⁻¹) = 1/2 := by norm_num
  have h1 : ¬ ((0:ℝ) = c7A) := ne_of_lt c7A_pos
  have h2 : ¬ (c7A = 2⁻¹) := by rw [hh]; exact ne_of_lt c7A_lt_half
  have h3 : ¬ ((2:ℝ)⁻¹ = c7B) := by rw [hh]; exact ne_of_lt half_lt_c7B
  simp [acceptedTees, h1, h2, h3]

/-- splitSegment of the scenario cubic: the raw tee stack evaluates,
filters and sorts to the five-entry run of the walk. -/
theorem c7_seg :
    splitSegment c7p c7q c7pen = splitWalk c7p c7q 0 [c7A, c7A, 1/2, c7B, c7B] := by
  rw [splitSegment, c7_infl, c7_pen]
  simp only [List.singleton_append]
  rw [c7_fil]
  rw [if_pos (by norm_num : 1 < ([(1:ℝ)/2, c7A, c7B, c7A, c7B]).length), c7_sort]

/-- Every segment restricts itself to the full parameter interval. -/
theorem seg_restricts_full (p q : Knot ℝ) : seg_restricts p q p q 0 1 := by
  refine ⟨?_, ?_, ?_, ?_, ?_, ?_, ?_, ?_⟩ <;>
    simp only [bX, bY, blossom, t_of_the_way] <;> ring

theorem list_len_four {α : Type} (l : List α) (h : l.length = 4) :
    ∃ a b c d, l = [a, b, c, d] := by
  rcases l with _ | ⟨a, _ | ⟨b, _ | ⟨c, _ | ⟨d, _ | ⟨e, t⟩⟩⟩⟩⟩ <;>
    simp only [List.length] at h <;> try omega
  exact ⟨a, b, c, d, rfl⟩

/-- The outcome of split_at_tees on the scenario: five knots, the
middle one the inflection split at position (5,0). -/
theorem c7_result :
    (split_at_tees c7path c7pen).length = 5 ∧
    ((split_at_tees c7path c7pen).getD 2 default).x = 5 ∧
    ((split_at_tees c7path c7pen).getD 2 default).y = 0 := by
  obtain ⟨CH, HA, EA, TL⟩ := splitWalk_spec c7p c7q [c7A, c7A, 1/2, c7B, c7B] c7p c7q 0
    (seg_restricts_full c7p c7q) (by norm_num)
    (by
      intro x hx
      simp only [List.mem_cons, List.not_mem_nil, or_false] at hx
      rcases hx with rfl | rfl | rfl | rfl | rfl
      · exact c7A_lt_half.trans (by norm_num)
      · exact c7A_lt_half.trans (by norm_num)
      · norm_num
      · exact c7B_lt_one
      · exact c7B_lt_one)
  rw [c7_acc] at CH
  have hlen : (splitWalk c7p c7q 0 [c7A, c7A, 1/2, c7B, c7B]).1.length = 4 := by
    have := chainRestricts_length c7p c7q _ _ _ CH
    simpa using this
  obtain ⟨c1, c2, c3, c4, hW⟩ := list_len_four _ hlen
  have hreg : (splitWalk c7p c7q 0 [c7A, c7A, 1/2, c7B, c7B]).2.right_type =
      kt_regular := by
    obtain ⟨-, -, -, -, e5⟩ := EA
    rw [e5]
    rfl
  have hsplit : split_at_tees c7path c7pen =
      (splitWalk c7p c7q 0 [c7A, c7A, 1/2, c7B, c7B]).1 ++
        [(splitWalk c7p c7q 0 [c7A, c7A, 1/2, c7B, c7B]).2] := by
    show (let cq := splitSegment c7p c7q c7pen;
      if cq.2.right_type = kt_regular then cq.1 ++ cq.2 :: [] else
        let lh := satGo c7pen cq.2 [] (cq.1.headD c7p)
        lh.2 :: (cq.1.tail ++ lh.1)) = _
    rw [c7_seg]
    simp only [if_pos hreg]
  rw [hW] at CH
  simp only [chainRestricts] at CH
  obtain ⟨-, -, h3, -⟩ := CH
  obtain ⟨hx, hy, -⟩ := h3
  rw [hsplit, hW]
  refine ⟨rfl, ?_, ?_⟩
  · show c3.x = 5
    rw [hx]
    norm_num [bX, blossom, t_of_the_way, c7p, c7q]
  · show c3.y = 0
    rw [hy]
    norm_num [bY, blossom, t_of_the_way, c7p, c7q]

/-- C7 counterexample: on the scenario cubic from (0,0) to (10,0)
with controls (0,10) and (10,-10), split against the validated unit
square pen, split_at_tees does NOT add exactly one knot to the ring:
the pen-slope tees of the two horizontal pen edges split as well, so
three knots are inserted, not one. -/
theorem C7_counterexample : (split_at_tees c7path c7pen).length ≠ c7path.length + 1 := by
  rw [c7_result.1]
  norm_num [c7path]

/-- C7 amended: on the scenario cubic, inflection_tees pushes exactly
the single root one half, and split_at_tees with the unit square pen
adds three knots (the inflection split plus the two pen-slope splits
of the horizontal pen edges); the middle inserted knot, at index 2 of
the resulting ring, is the inflection split and sits at position
(5,0). -/
theorem C7_amended : inflection_tees c7p c7q = [1/2] ∧
    (split_at_tees c7path c7pen).length = c7path.length + 3 ∧
    ((split_at_tees c7path c7pen).getD 2 default).x = 5 ∧
    ((split_at_tees c7path c7pen).getD 2 default).y = 0 :=
  ⟨c7_infl, by rw [c7_result.1]; rfl, c7_result.2.1, c7_result.2.2⟩

/-! ### C8: idempotence of split_at_tees

The root layer: solve_quadratic pushes exactly the real roots of the
quadratic A t^2 - 2 B t + C (complete whenever the coefficient triple
is not identically zero), solve_bezier those of the Bernstein form. -/

/-- The quadratic polynomial solve_quadratic solves (B = -b/2
convention). -/
noncomputable def qpoly (a b c t : ℝ) : ℝ := a * t^2 - 2 * b * t + c

theorem sq_zero : solve_quadratic 0 0 0 = [] := by
  rw [solve_quadratic]
  norm_num

/-- Every value solve_quadratic pushes is a root of the quadratic. -/
theorem solve_quadratic_sound (a b c r : ℝ) (hr : r ∈ solve_quadratic a b c) :
    qpoly a b c r = 0 := by
  simp only [solve_quadratic, qpoly] at hr ⊢
  split_ifs at hr with h1 h2 h3 h4 h5 h6 h7
  · simp only [List.mem_singleton] at hr
    subst hr h1
    field_simp
  · simp at hr
  · simp only [List.mem_cons, List.mem_singleton, List.not_mem_nil, or_false] at hr
    rcases hr with rfl | rfl
    · rw [h3]; ring
    · rw [h3]; field_simp; ring
  · simp only [List.mem_cons, List.not_mem_nil, or_false] at hr
    subst hr
    rw [h3]; ring
  · simp at hr
  · simp only [List.mem_singleton] at hr
    subst hr
    have hd0 : b * b - a * c = 0 :=
      le_antisymm (Real.sqrt_eq_zero'.mp h6) (not_lt.mp h5)
    field_simp
    linear_combination (-(a^2)) * hd0
  · have hsq : Real.sqrt (b * b - a * c) * Real.sqrt (b * b - a * c) =
        b * b - a * c := Real.mul_self_sqrt (not_lt.mp h5)
    have hbs : b - Real.sqrt (b * b - a * c) ≠ 0 :=
      ne_of_lt (by nlinarith [Real.sqrt_nonneg (b * b - a * c)])
    simp only [List.mem_cons, List.mem_singleton, List.not_mem_nil, or_false] at hr
    rcases hr with rfl | rfl
    · field_simp
      linear_combination (c * (b - Real.sqrt (b * b - a * c))) * hsq
    · field_simp
      linear_combination (a^2) * hsq
  · have hsq : Real.sqrt (b * b - a * c) * Real.sqrt (b * b - a * c) =
        b * b - a * c := Real.mul_self_sqrt (not_lt.mp h5)
    have hbs : b + Real.sqrt (b * b - a * c) ≠ 0 := by
      have := (Real.sqrt_nonneg (b * b - a * c)).lt_of_ne (Ne.symm h6)
      nlinarith [not_lt.mp h7]
    simp only [List.mem_cons, List.mem_singleton, List.not_mem_nil, or_false] at hr
    rcases hr with rfl | rfl
    · field_simp
      linear_combination (c * (b + Real.sqrt (b * b - a * c))) * hsq
    · field_simp
      linear_combination (a^2) * hsq

/-- Whenever the coefficients are not identically zero, every real
root of the quadratic is pushed by solve_quadratic. -/
theorem solve_quadratic_complete (a b c r : ℝ) (habc : ¬(a = 0 ∧ b = 0 ∧ c = 0))
    (hroot : qpoly a b c r = 0) : r ∈ solve_quadratic a b c := by
  simp only [qpoly] at hroot
  simp only [solve_quadratic]
  by_cases h1 : a = 0
  · subst h1
    by_cases h2 : b = 0
    · subst h2
      exact absurd ⟨rfl, rfl, by linarith [hroot]⟩ habc
    · simp only [if_pos rfl, if_pos (show b ≠ 0 from h2), List.mem_singleton]
      field_simp
      linarith [hroot]
  · rw [if_neg h1]
    by_cases h3 : c = 0
    · rw [if_pos h3]
      have hfac : r * (a * r - 2 * b) = 0 := by linear_combination hroot - h3
      rcases mul_eq_zero.mp hfac with hr0 | hr2
      · subst hr0
        by_cases h4 : b = 0 <;> simp [h4]
      · by_cases h4 : b = 0
        · have : r = 0 := by
            have : a * r = 0 := by rw [h4] at hr2; linarith [hr2]
            rcases mul_eq_zero.mp this with h | h
            · exact absurd h h1
            · exact h
          subst this
          simp [h4]
        · simp only [if_pos (show b ≠ 0 from h4), List.mem_cons,
            List.mem_singleton, List.not_mem_nil, or_false]
          right
          field_simp
          linarith [hr2]
    · rw [if_neg h3]
      have key : (a * r - b)^2 = b * b - a * c := by linear_combination a * hroot
      have hd : ¬(b * b - a * c < 0) := not_lt.mpr (key ▸ sq_nonneg (a * r - b))
      by_cases h6 : Real.sqrt (b * b - a * c) = 0
      · have hd0 : b * b - a * c = 0 :=
          le_antisymm (Real.sqrt_eq_zero'.mp h6) (not_lt.mp hd)
        have har : a * r - b = 0 := by
          have h2 : (a * r - b)^2 = 0 := key.trans hd0
          exact sq_eq_zero_iff.mp h2
        simp only [if_neg hd, if_pos h6, List.mem_singleton]
        field_simp
        linarith [har]
      · have hsq : Real.sqrt (b * b - a * c) * Real.sqrt (b * b - a * c) =
            b * b - a * c := Real.mul_self_sqrt (not_lt.mp hd)
        have hs0 : 0 < Real.sqrt (b * b - a * c) :=
          (Real.sqrt_nonneg _).lt_of_ne (Ne.symm h6)
        have hfac : (a * r - b - Real.sqrt (b * b - a * c)) *
            (a * r - b + Real.sqrt (b * b - a * c)) = 0 := by
          linear_combination key - hsq
        rcases mul_eq_zero.mp hfac with h | h
        · by_cases h7 : b < 0
          · have hbs : b - Real.sqrt (b * b - a * c) ≠ 0 := ne_of_lt (by nlinarith)
            simp only [if_neg hd, if_neg h6, if_pos h7, List.mem_cons,
              List.mem_singleton, List.not_mem_nil, or_false]
            left
            have hr' : r = (b + Real.sqrt (b * b - a * c)) / a := by
              field_simp
              linarith [h]
            rw [hr', div_eq_div_iff h1 hbs]
            linear_combination -hsq
          · simp only [if_neg hd, if_neg h6, if_neg h7, List.mem_cons,
              List.mem_singleton, List.not_mem_nil, or_false]
            right
            field_simp
            linarith [h]
        · by_cases h7 : b < 0
          · simp only [if_neg hd, if_neg h6, if_pos h7, List.mem_cons,
              List.mem_singleton, List.not_mem_nil, or_false]
            right
            field_simp
            linarith [h]
          · have hbs : b + Real.sqrt (b * b - a * c) ≠ 0 := by
              nlinarith [not_lt.mp h7]
            simp only [if_neg hd, if_neg h6, if_neg h7, List.mem_cons,
              List.mem_singleton, List.not_mem_nil, or_false]
            left
            have hr' : r = (b - Real.sqrt (b * b - a * c)) / a := by
              field_simp
              linarith [h]
            rw [hr', div_eq_div_iff h1 hbs]
            linear_combination -hsq

/-- The degree-2 Bernstein form u (1-t)^2 + 2 v t (1-t) + w t^2. -/
noncomputable def bern2 (u v w t : ℝ) : ℝ :=
  u * (1 - t)^2 + 2 * v * t * (1 - t) + w * t^2

theorem bern2_eq_qpoly (u v w t : ℝ) :
    bern2 u v w t = qpoly (u - v - v + w) (u - v) u t := by
  simp only [bern2, qpoly]
  ring

theorem solve_bezier_sound (u v w r : ℝ) (hr : r ∈ solve_bezier u v w) :
    bern2 u v w r = 0 := by
  rw [bern2_eq_qpoly]
  exact solve_quadratic_sound _ _ _ _ (by rw [← solve_bezier]; exact hr)

theorem solve_bezier_complete (u v w r : ℝ) (huvw : ¬(u = 0 ∧ v = 0 ∧ w = 0))
    (hroot : bern2 u v w r = 0) : r ∈ solve_bezier u v w := by
  rw [solve_bezier]
  refine solve_quadratic_complete _ _ _ _ ?_ (by rw [← bern2_eq_qpoly]; exact hroot)
  intro ⟨h1, h2, h3⟩
  exact huvw ⟨h3, by linarith, by linarith⟩

theorem solve_bezier_zero : solve_bezier 0 0 0 = [] := by
  rw [solve_bezier]
  norm_num [sq_zero]

/-- Membership in a fold that appends a block per element. -/
theorem foldl_append_mem {α β : Type} (f : α → List β) :
    ∀ (l : List α) (acc : List β) (t : β),
      (t ∈ l.foldl (fun a e => a ++ f e) acc ↔ t ∈ acc ∨ ∃ e ∈ l, t ∈ f e) := by
  intro l
  induction l with
  | nil => intro acc t; simp
  | cons e l ih =>
    intro acc t
    rw [List.foldl_cons, ih]
    simp only [List.mem_append, List.mem_cons]
    constructor
    · rintro ((h | h) | ⟨e2, he2, ht⟩)
      · exact Or.inl h
      · exact Or.inr ⟨e, Or.inl rfl, h⟩
      · exact Or.inr ⟨e2, Or.inr he2, ht⟩
    · rintro (h | ⟨e2, (rfl | he2), ht⟩)
      · exact Or.inl (Or.inl h)
      · exact Or.inl (Or.inr ht)
      · exact Or.inr ⟨e2, he2, ht⟩

/-- A tee is pushed by pen_tees exactly when it is pushed for one of
the pen edges. -/
theorem pen_tees_mem (p q : Knot ℝ) (pen : List (Knot ℝ)) (t : ℝ) :
    t ∈ pen_tees p q pen ↔ ∃ e ∈ pen.zip (pen.rotate 1),
      t ∈ solve_bezier (penT0 p q (e.2.x - e.1.x) (e.2.y - e.1.y))
        (penT1 p q (e.2.x - e.1.x) (e.2.y - e.1.y))
        (penT2 p q (e.2.x - e.1.x) (e.2.y - e.1.y)) := by
  rw [pen_tees, foldl_append_mem]
  simp

/-- insertSorted is Mathlib's orderedInsert. -/
theorem insertSorted_eq (x : ℝ) (l : List ℝ) :
    insertSorted x l = List.orderedInsert (· ≤ ·) x l := by
  induction l with
  | nil => rfl
  | cons y ys ih => simp only [insertSorted, List.orderedInsert, ih]

/-- sort_tees is Mathlib's insertion sort. -/
theorem sort_tees_eq (l : List ℝ) : sort_tees l = List.insertionSort (· ≤ ·) l := by
  induction l with
  | nil => rfl
  | cons y ys ih =>
    simp only [sort_tees, List.foldr_cons, List.insertionSort, insertSorted_eq]
    rw [← ih]
    rfl

theorem sort_tees_sorted (l : List ℝ) : (sort_tees l).Sorted (· ≤ ·) := by
  rw [sort_tees_eq]
  exact List.sorted_insertionSort _ l

theorem mem_sort_tees (l : List ℝ) (y : ℝ) : y ∈ sort_tees l ↔ y ∈ l := by
  rw [sort_tees_eq]
  exact (List.perm_insertionSort _ l).mem_iff

/-- The pen-slope Bernstein coefficients of a de Casteljau
sub-segment are the blossom values of the original coefficients on
the sub-interval, scaled by its width: derivative controls scale by
(v-u) and restrict along the quadratic blossom. -/
theorem pen_coeffs (p0 q0 p q : Knot ℝ) (u v dx dy : ℝ)
    (h : seg_restricts p0 q0 p q u v) :
    penT0 p q dx dy = (v - u) * ((1-u)^2 * penT0 p0 q0 dx dy +
      2*u*(1-u) * penT1 p0 q0 dx dy + u^2 * penT2 p0 q0 dx dy) ∧
    penT1 p q dx dy = (v - u) * ((1-u)*(1-v) * penT0 p0 q0 dx dy +
      (u*(1-v) + v*(1-u)) * penT1 p0 q0 dx dy + u*v * penT2 p0 q0 dx dy) ∧
    penT2 p q dx dy = (v - u) * ((1-v)^2 * penT0 p0 q0 dx dy +
      2*v*(1-v) * penT1 p0 q0 dx dy + v^2 * penT2 p0 q0 dx dy) := by
  obtain ⟨h1, h2, h3, h4, h5, h6, h7, h8⟩ := h
  refine ⟨?_, ?_, ?_⟩ <;>
    simp only [penT0, penT1, penT2, h1, h2, h3, h4, h5, h6, h7, h8, bX, bY,
      blossom, t_of_the_way] <;> ring

/-- The slope-match Bernstein value of a sub-segment is the original
one at the reparameterized point, scaled by the interval width. -/
theorem pen_bern_transform (p0 q0 p q : Knot ℝ) (u v dx dy t : ℝ)
    (h : seg_restricts p0 q0 p q u v) :
    bern2 (penT0 p q dx dy) (penT1 p q dx dy) (penT2 p q dx dy) t =
      (v - u) * bern2 (penT0 p0 q0 dx dy) (penT1 p0 q0 dx dy)
        (penT2 p0 q0 dx dy) (u + t * (v - u)) := by
  obtain ⟨c0, c1, c2⟩ := pen_coeffs p0 q0 p q u v dx dy h
  rw [c0, c1, c2]
  simp only [bern2]
  ring

/-- First coefficient passed to solve_quadratic by inflection_tees. -/
noncomputable def inflT0 (p q : Knot ℝ) : ℝ :=
  let x1 := p.right_info.x - p.x
  let y1 := p.right_info.y - p.y
  let x2 := q.left_info.x - p.x
  let y2 := q.left_info.y - p.y
  let x3 := q.x - p.x
  let y3 := q.y - p.y
  let m := Real.sqrt (x3 * x3 + y3 * y3)
  let t0 := x3 / m
  let t1 := y3 / m
  let rx0 := x1 * t0 + y1 * t1
  let ry0 := y1 * t0 - x1 * t1
  let rx1 := x2 * t0 + y2 * t1
  let ry1 := y2 * t0 - x2 * t1
  let rx2 := x3 * t0 + y3 * t1
  let a := rx1 * ry0
  let b := rx2 * ry0
  let c := rx0 * ry1
  let d := rx2 * ry1
  18 * (-3 * a + 2 * b + 3 * c - d)

/-- Second coefficient passed to solve_quadratic by inflection_tees. -/
noncomputable def inflT1 (p q : Knot ℝ) : ℝ :=
  let x1 := p.right_info.x - p.x
  let y1 := p.right_info.y - p.y
  let x2 := q.left_info.x - p.x
  let y2 := q.left_info.y - p.y
  let x3 := q.x - p.x
  let y3 := q.y - p.y
  let m := Real.sqrt (x3 * x3 + y3 * y3)
  let t0 := x3 / m
  let t1 := y3 / m
  let rx0 := x1 * t0 + y1 * t1
  let ry0 := y1 * t0 - x1 * t1
  let rx1 := x2 * t0 + y2 * t1
  let ry1 := y2 * t0 - x2 * t1
  let rx2 := x3 * t0 + y3 * t1
  let a := rx1 * ry0
  let b := rx2 * ry0
  let c := rx0 * ry1
  9 * (-3 * a + b + 3 * c)

/-- Third coefficient passed to solve_quadratic by inflection_tees. -/
noncomputable def inflT2 (p q : Knot ℝ) : ℝ :=
  let x1 := p.right_info.x - p.x
  let y1 := p.right_info.y - p.y
  let x2 := q.left_info.x - p.x
  let y2 := q.left_info.y - p.y
  let x3 := q.x - p.x
  let y3 := q.y - p.y
  let m := Real.sqrt (x3 * x3 + y3 * y3)
  let t0 := x3 / m
  let t1 := y3 / m
  let rx0 := x1 * t0 + y1 * t1
  let ry0 := y1 * t0 - x1 * t1
  let rx1 := x2 * t0 + y2 * t1
  let ry1 := y2 * t0 - x2 * t1
  let a := rx1 * ry0
  let c := rx0 * ry1
  18 * (c - a)

theorem inflection_tees_eq (p q : Knot ℝ) :
    inflection_tees p q = solve_quadratic (inflT0 p q) (inflT1 p q) (inflT2 p q) :=
  rfl

/-- Squared chord length of a segment. -/
noncomputable def chordM (p q : Knot ℝ) : ℝ :=
  (q.x - p.x) * (q.x - p.x) + (q.y - p.y) * (q.y - p.y)

/-- The rotation-invariant inflection form: the cross product of the
first and second derivative of the cubic (scaled by 1/18), written
from the control differences. -/
noncomputable def crossQ (p q : Knot ℝ) (t : ℝ) : ℝ :=
  bern2 (p.right_info.x - p.x) (q.left_info.x - p.right_info.x)
      (q.x - q.left_info.x) t *
    (((q.left_info.y - p.right_info.y) - (p.right_info.y - p.y)) * (1 - t) +
     ((q.y - q.left_info.y) - (q.left_info.y - p.right_info.y)) * t) -
  bern2 (p.right_info.y - p.y) (q.left_info.y - p.right_info.y)
      (q.y - q.left_info.y) t *
    (((q.left_info.x - p.right_info.x) - (p.right_info.x - p.x)) * (1 - t) +
     ((q.x - q.left_info.x) - (q.left_info.x - p.right_info.x)) * t)

/-- For a segment with nonzero chord, the quadratic solved by
inflection_tees is 18 times the rotation-invariant cross form: the
rotation is by a unit vector (the chord direction), which leaves
cross products unchanged, and the normalization m cancels against
the squared chord length. -/
theorem infl_identity (p q : Knot ℝ) (t : ℝ) (hM : chordM p q ≠ 0) :
    qpoly (inflT0 p q) (inflT1 p q) (inflT2 p q) t = 18 * crossQ p q t := by
  have hM0 : (0:ℝ) ≤ (q.x - p.x) * (q.x - p.x) + (q.y - p.y) * (q.y - p.y) :=
    add_nonneg (mul_self_nonneg _) (mul_self_nonneg _)
  have hMne : (q.x - p.x) * (q.x - p.x) + (q.y - p.y) * (q.y - p.y) ≠ 0 := by
    simpa [chordM] using hM
  have hm2 : Real.sqrt ((q.x - p.x) * (q.x - p.x) + (q.y - p.y) * (q.y - p.y)) *
      Real.sqrt ((q.x - p.x) * (q.x - p.x) + (q.y - p.y) * (q.y - p.y)) =
      (q.x - p.x) * (q.x - p.x) + (q.y - p.y) * (q.y - p.y) :=
    Real.mul_self_sqrt hM0
  have hm0 : Real.sqrt ((q.x - p.x) * (q.x - p.x) + (q.y - p.y) * (q.y - p.y)) ≠ 0 :=
    fun h => hMne (by rw [← hm2, h, mul_zero])
  have hq : qpoly (inflT0 p q) (inflT1 p q) (inflT2 p q) t *
      (Real.sqrt ((q.x - p.x) * (q.x - p.x) + (q.y - p.y) * (q.y - p.y)) *
       Real.sqrt ((q.x - p.x) * (q.x - p.x) + (q.y - p.y) * (q.y - p.y))) =
      ((q.x - p.x) * (q.x - p.x) + (q.y - p.y) * (q.y - p.y)) *
        (18 * crossQ p q t) := by
    rw [hm2]
    simp only [qpoly, inflT0, inflT1, inflT2, crossQ, bern2]
    field_simp
    ring
  rw [hm2] at hq
  exact mul_left_cancel₀ hMne (by linear_combination hq)

/-- A zero-length chord zeroes every coefficient inflection_tees
passes to solve_quadratic, so nothing is pushed. -/
theorem inflection_tees_chord_zero (p q : Knot ℝ) (hM : chordM p q = 0) :
    inflection_tees p q = [] := by
  have hx3 : q.x - p.x = 0 := by
    have h1 := mul_self_nonneg (q.x - p.x)
    have h2 := mul_self_nonneg (q.y - p.y)
    have h3 : (q.x - p.x) * (q.x - p.x) = 0 := by
      simp only [chordM] at hM
      linarith
    exact mul_self_eq_zero.mp h3
  have hy3 : q.y - p.y = 0 := by
    have h1 := mul_self_nonneg (q.x - p.x)
    have h2 := mul_self_nonneg (q.y - p.y)
    have h3 : (q.y - p.y) * (q.y - p.y) = 0 := by
      simp only [chordM] at hM
      linarith
    exact mul_self_eq_zero.mp h3
  have h0 : inflT0 p q = 0 := by
    simp only [inflT0]
    rw [hx3, hy3]
    simp
  have h1 : inflT1 p q = 0 := by
    simp only [inflT1]
    rw [hx3, hy3]
    simp
  have h2 : inflT2 p q = 0 := by
    simp only [inflT2]
    rw [hx3, hy3]
    simp
  rw [inflection_tees_eq, h0, h1, h2, sq_zero]

/-- The cross form of a de Casteljau sub-segment is the original one
at the reparameterized point, scaled by the cube of the width. -/
theorem crossQ_restrict (p0 q0 p q : Knot ℝ) (u v t : ℝ)
    (h : seg_restricts p0 q0 p q u v) :
    crossQ p q t = (v - u)^3 * crossQ p0 q0 (u + t * (v - u)) := by
  obtain ⟨h1, h2, h3, h4, h5, h6, h7, h8⟩ := h
  simp only [crossQ, bern2, h1, h2, h3, h4, h5, h6, h7, h8, bX, bY, blossom,
    t_of_the_way]
  ring

/-- For a closed chord (segment end equals segment start) the cross
form degenerates to a constant multiple of 3 t^2 - 3 t + 1. -/
theorem crossQ_chord_zero (p q : Knot ℝ) (hx : q.x = p.x) (hy : q.y = p.y) (t : ℝ) :
    crossQ p q t = ((p.right_info.x - p.x) * (q.left_info.y - p.y) -
      (p.right_info.y - p.y) * (q.left_info.x - p.x)) * (3*t^2 - 3*t + 1) := by
  simp only [crossQ, bern2, hx, hy]
  ring

theorem three_t_sq_pos (t : ℝ) : 0 < 3*t^2 - 3*t + 1 := by
  nlinarith [sq_nonneg (2*t - 1)]

/-- A quadratic in the solve_quadratic convention that vanishes
everywhere has zero coefficients. -/
theorem qpoly_zero_of_forall (a b c : ℝ) (h : ∀ t, qpoly a b c t = 0) :
    a = 0 ∧ b = 0 ∧ c = 0 := by
  have h0 := h 0
  have h1 := h 1
  have hm := h (-1)
  simp only [qpoly] at h0 h1 hm
  refine ⟨by nlinarith, by nlinarith, by nlinarith⟩

/-- The raw tee stack of one segment after the unit-interval filter. -/
noncomputable def filteredTees (p q : Knot ℝ) (pen : List (Knot ℝ)) : List ℝ :=
  (inflection_tees p q ++ pen_tees p q pen).filter
    (fun m => decide (0 < m) && decide (m < 1))

theorem splitSegment_eq (p q : Knot ℝ) (pen : List (Knot ℝ)) :
    splitSegment p q pen = splitWalk p q 0
      (if 1 < (filteredTees p q pen).length then sort_tees (filteredTees p q pen)
       else filteredTees p q pen) :=
  rfl

theorem mem_filteredTees (p q : Knot ℝ) (pen : List (Knot ℝ)) (y : ℝ) :
    y ∈ filteredTees p q pen ↔
      (y ∈ inflection_tees p q ∨ y ∈ pen_tees p q pen) ∧ 0 < y ∧ y < 1 := by
  simp only [filteredTees, List.mem_filter, List.mem_append, Bool.and_eq_true,
    decide_eq_true_eq]

theorem chord_zero_coords (p q : Knot ℝ) (hM : chordM p q = 0) :
    q.x = p.x ∧ q.y = p.y := by
  have h1 := mul_self_nonneg (q.x - p.x)
  have h2 := mul_self_nonneg (q.y - p.y)
  simp only [chordM] at hM
  constructor
  · have h3 : (q.x - p.x) * (q.x - p.x) = 0 := by linarith
    have := mul_self_eq_zero.mp h3
    linarith
  · have h3 : (q.y - p.y) * (q.y - p.y) = 0 := by linarith
    have := mul_self_eq_zero.mp h3
    linarith

/-- Central idempotence step: a de Casteljau restriction of a
segment to a sub-interval free of filtered first-run tees produces no
filtered tees of its own, so a second splitSegment run leaves it
untouched.  Every second-run inflection or pen-slope root inside the
unit interval would reparameterize to a first-run root strictly
inside the sub-interval (sound roots transfer along the blossom
coefficient identities, and the complete solver would have pushed
it), except in the identically-zero-coefficient cases, where the
sub-segment solver receives the zero triple and pushes nothing. -/
theorem no_second_split (p0 q0 : Knot ℝ) (pen : List (Knot ℝ)) (u v : ℝ)
    (p q : Knot ℝ) (h : seg_restricts p0 q0 p q u v) (h0u : 0 ≤ u) (huv : u < v)
    (hv1 : v ≤ 1)
    (hgap : ∀ y ∈ filteredTees p0 q0 pen, ¬(u < y ∧ y < v)) :
    splitSegment p q pen = ([p], q) := by
  have key : ∀ t, 0 < t → t < 1 →
      t ∈ inflection_tees p q ++ pen_tees p q pen → False := by
    intro t ht0 ht1 htm
    have hvu : v - u ≠ 0 := ne_of_gt (by linarith)
    have hsu : u < u + t * (v - u) := by nlinarith
    have hsv : u + t * (v - u) < v := by nlinarith
    rcases List.mem_append.mp htm with hI | hP
    · by_cases hMS : chordM p q = 0
      · rw [inflection_tees_chord_zero p q hMS] at hI
        exact absurd hI (List.not_mem_nil t)
      · have hroot : qpoly (inflT0 p q) (inflT1 p q) (inflT2 p q) t = 0 :=
          solve_quadratic_sound _ _ _ _ (by rw [← inflection_tees_eq]; exact hI)
        have hcq : crossQ p q t = 0 := by
          have hid := infl_identity p q t hMS
          rw [hroot] at hid
          linarith
        have hs : crossQ p0 q0 (u + t * (v - u)) = 0 := by
          have hr := crossQ_restrict p0 q0 p q u v t h
          rw [hcq] at hr
          rcases mul_eq_zero.mp hr.symm with h3 | h3
          · exact absurd h3 (pow_ne_zero _ hvu)
          · exact h3
        have subzero : (∀ τ, crossQ p0 q0 τ = 0) → False := by
          intro hall
          have hallS : ∀ τ, crossQ p q τ = 0 := fun τ => by
            rw [crossQ_restrict p0 q0 p q u v τ h, hall, mul_zero]
          have hq0 : ∀ τ, qpoly (inflT0 p q) (inflT1 p q) (inflT2 p q) τ = 0 :=
            fun τ => by rw [infl_identity p q τ hMS, hallS, mul_zero]
          obtain ⟨e0, e1, e2⟩ := qpoly_zero_of_forall _ _ _ hq0
          rw [inflection_tees_eq, e0, e1, e2, sq_zero] at hI
          exact absurd hI (List.not_mem_nil t)
        by_cases hMO : chordM p0 q0 = 0
        · obtain ⟨hx, hy⟩ := chord_zero_coords p0 q0 hMO
          have hk : (p0.right_info.x - p0.x) * (q0.left_info.y - p0.y) -
              (p0.right_info.y - p0.y) * (q0.left_info.x - p0.x) = 0 := by
            have hz := crossQ_chord_zero p0 q0 hx hy (u + t * (v - u))
            rw [hs] at hz
            rcases mul_eq_zero.mp hz.symm with h3 | h3
            · exact h3
            · exact absurd h3 (ne_of_gt (three_t_sq_pos _))
          exact subzero fun τ => by rw [crossQ_chord_zero p0 q0 hx hy τ, hk, zero_mul]
        · have hrootO : qpoly (inflT0 p0 q0) (inflT1 p0 q0) (inflT2 p0 q0)
              (u + t * (v - u)) = 0 := by
            rw [infl_identity p0 q0 _ hMO, hs, mul_zero]
          by_cases hco : inflT0 p0 q0 = 0 ∧ inflT1 p0 q0 = 0 ∧ inflT2 p0 q0 = 0
          · refine subzero fun τ => ?_
            have hid := infl_identity p0 q0 τ hMO
            rw [hco.1, hco.2.1, hco.2.2] at hid
            simp only [qpoly] at hid
            linarith
          · have hmem : u + t * (v - u) ∈ inflection_tees p0 q0 := by
              rw [inflection_tees_eq]
              exact solve_quadratic_complete _ _ _ _ hco hrootO
            have hfilm : u + t * (v - u) ∈ filteredTees p0 q0 pen := by
              rw [mem_filteredTees]
              exact ⟨Or.inl hmem, by linarith, by linarith⟩
            exact hgap _ hfilm ⟨hsu, hsv⟩
    · obtain ⟨e, he, ht⟩ := (pen_tees_mem p q pen t).mp hP
      have hroot : bern2 (penT0 p q (e.2.x - e.1.x) (e.2.y - e.1.y))
          (penT1 p q (e.2.x - e.1.x) (e.2.y - e.1.y))
          (penT2 p q (e.2.x - e.1.x) (e.2.y - e.1.y)) t = 0 :=
        solve_bezier_sound _ _ _ _ ht
      have htr := pen_bern_transform p0 q0 p q u v (e.2.x - e.1.x)
        (e.2.y - e.1.y) t h
      rw [hroot] at htr
      have hbs : bern2 (penT0 p0 q0 (e.2.x - e.1.x) (e.2.y - e.1.y))
          (penT1 p0 q0 (e.2.x - e.1.x) (e.2.y - e.1.y))
          (penT2 p0 q0 (e.2.x - e.1.x) (e.2.y - e.1.y)) (u + t * (v - u)) = 0 := by
        rcases mul_eq_zero.mp htr.symm with h3 | h3
        · exact absurd h3 hvu
        · exact h3
      by_cases hco : penT0 p0 q0 (e.2.x - e.1.x) (e.2.y - e.1.y) = 0 ∧
          penT1 p0 q0 (e.2.x - e.1.x) (e.2.y - e.1.y) = 0 ∧
          penT2 p0 q0 (e.2.x - e.1.x) (e.2.y - e.1.y) = 0
      · obtain ⟨c0, c1, c2⟩ := pen_coeffs p0 q0 p q u v (e.2.x - e.1.x)
          (e.2.y - e.1.y) h
        rw [hco.1, hco.2.1, hco.2.2] at c0 c1 c2
        simp only [mul_zero, zero_mul, add_zero, zero_add] at c0 c1 c2
        rw [c0, c1, c2, solve_bezier_zero] at ht
        exact absurd ht (List.not_mem_nil t)
      · have hmem : u + t * (v - u) ∈ pen_tees p0 q0 pen := by
          rw [pen_tees_mem]
          exact ⟨e, he, solve_bezier_complete _ _ _ _ hco hbs⟩
        have hfilm : u + t * (v - u) ∈ filteredTees p0 q0 pen := by
          rw [mem_filteredTees]
          exact ⟨Or.inr hmem, by linarith, by linarith⟩
        exact hgap _ hfilm ⟨hsu, hsv⟩
  have hfil : filteredTees p q pen = [] := by
    rw [filteredTees, List.filter_eq_nil]
    intro t htm
    simp only [Bool.and_eq_true, decide_eq_true_eq, not_and]
    intro h1 h2
    exact absurd htm (fun hm => key t h1 h2 hm)
  rw [splitSegment_eq, hfil]
  norm_num [splitWalk]

/-- q2 agrees with q on the fields a segment ending at q reads: the
position and the incoming control. -/
def sameSeg (q q2 : Knot ℝ) : Prop :=
  q2.x = q.x ∧ q2.y = q.y ∧ q2.left_info = q.left_info

/-- Along a chain produced by a split walk, every consecutive pair is
left untouched by a second splitSegment run; the closing pair is
untouched for any right-side variant of the end knot. -/
def chainPairsOK (pen : List (Knot ℝ)) : List (Knot ℝ) → Knot ℝ → Prop
  | [], _ => True
  | [c], qk => ∀ q2, sameSeg qk q2 → splitSegment c q2 pen = ([c], q2)
  | c1 :: c2 :: cs, qk =>
    splitSegment c1 c2 pen = ([c1], c2) ∧ chainPairsOK pen (c2 :: cs) qk

theorem splitWalk_ne_nil : ∀ (tees : List ℝ) (p q : Knot ℝ) (s : ℝ),
    (splitWalk p q s tees).1 ≠ [] := by
  intro tees
  induction tees with
  | nil => intro p q s; simp [splitWalk]
  | cons x rest ih =>
    intro p q s
    by_cases hsx : s = x
    · simpa [splitWalk, hsx] using ih p q s
    · simp [splitWalk, hsx]

/-- The split walk over sorted tees that exhaust the filtered
first-run stack beyond the current position produces a chain whose
consecutive pairs a second run leaves untouched. -/
theorem splitWalk_noresplit (p0 q0 : Knot ℝ) (pen : List (Knot ℝ)) :
    ∀ (tees : List ℝ) (p q : Knot ℝ) (s : ℝ),
      seg_restricts p0 q0 p q s 1 → 0 ≤ s → s < 1 →
      tees.Sorted (· ≤ ·) →
      (∀ y ∈ tees, s ≤ y ∧ y < 1) →
      (∀ y ∈ filteredTees p0 q0 pen, y ≤ s ∨ y ∈ tees) →
      chainPairsOK pen (splitWalk p q s tees).1 (splitWalk p q s tees).2 ∧
      head_agrees p ((splitWalk p q s tees).1.headD p) ∧
      end_agrees q (splitWalk p q s tees).2 := by
  intro tees
  induction tees with
  | nil =>
    intro p q s h h0s hs1 _ _ hinv
    refine ⟨?_, ⟨rfl, rfl, rfl, rfl, rfl⟩, ⟨rfl, rfl, rfl, rfl, rfl⟩⟩
    show chainPairsOK pen [p] q
    intro q2 hq2
    obtain ⟨a1, a2, a3⟩ := hq2
    obtain ⟨r1, r2, r3, r4, r5, r6, r7, r8⟩ := h
    refine no_second_split p0 q0 pen s 1 p q2
      ⟨r1, r2, r3, r4, by rw [a3]; exact r5, by rw [a3]; exact r6,
        by rw [a1]; exact r7, by rw [a2]; exact r8⟩ h0s hs1 le_rfl ?_
    intro y hy
    rcases hinv y hy with h1 | h1
    · exact fun hc => absurd hc.1 (not_lt.mpr h1)
    · exact absurd h1 (List.not_mem_nil y)
  | cons x rest ih =>
    intro p q s h h0s hs1 hsort hbound hinv
    obtain ⟨hxall, hrest⟩ := List.sorted_cons.mp hsort
    by_cases hsx : s = x
    · have hrw : splitWalk p q s (x :: rest) = splitWalk p q s rest := by
        simp [splitWalk, hsx]
      rw [hrw]
      refine ih p q s h h0s hs1 hrest
        (fun y hy => hbound y (List.mem_cons_of_mem x hy)) ?_
      intro y hy
      rcases hinv y hy with h1 | h1
      · exact Or.inl h1
      · rcases List.mem_cons.mp h1 with rfl | h2
        · exact Or.inl (le_of_eq hsx.symm)
        · exact Or.inr h2
    · have hsltx : s < x := lt_of_le_of_ne (hbound x (List.mem_cons_self x rest)).1 hsx
      have hx1 : x < 1 := (hbound x (List.mem_cons_self x rest)).2
      have hse : (1 : ℝ) - s ≠ 0 := by intro hc; nlinarith
      have hx : x = s + (x - s) / (1 - s) * (1 - s) := by field_simp
      obtain ⟨R1, R2⟩ := cubic_split_restricts p0 q0 p q s ((x - s) / (1 - s)) x hx h
      obtain ⟨CH, HA, EA⟩ := ih (cubic_split p q ((x - s) / (1 - s))).2.1
        (cubic_split p q ((x - s) / (1 - s))).2.2 x R2 (by linarith) hx1 hrest
        (fun y hy => ⟨hxall y hy, (hbound y (List.mem_cons_of_mem x hy)).2⟩)
        (by
          intro y hy
          rcases hinv y hy with h1 | h1
          · exact Or.inl (h1.trans hsltx.le)
          · rcases List.mem_cons.mp h1 with rfl | h2
            · exact Or.inl le_rfl
            · exact Or.inr h2)
      have hrw : splitWalk p q s (x :: rest) =
          ((cubic_split p q ((x - s) / (1 - s))).1 ::
            (splitWalk (cubic_split p q ((x - s) / (1 - s))).2.1
              (cubic_split p q ((x - s) / (1 - s))).2.2 x rest).1,
           (splitWalk (cubic_split p q ((x - s) / (1 - s))).2.1
              (cubic_split p q ((x - s) / (1 - s))).2.2 x rest).2) := by
        simp [splitWalk, hsx]
      rw [hrw]
      obtain ⟨c, cs, hcs⟩ := List.exists_cons_of_ne_nil (splitWalk_ne_nil rest
        (cubic_split p q ((x - s) / (1 - s))).2.1
        (cubic_split p q ((x - s) / (1 - s))).2.2 x)
      rw [hcs] at CH HA ⊢
      simp only [List.headD_cons] at HA
      obtain ⟨e1, e2, e3, e4, e5⟩ := HA
      refine ⟨⟨?_, CH⟩, ⟨rfl, rfl, rfl, rfl, rfl⟩, ?_⟩
      · obtain ⟨r1, r2, r3, r4, r5, r6, r7, r8⟩ := R1
        refine no_second_split p0 q0 pen s x (cubic_split p q ((x - s) / (1 - s))).1 c
          ⟨r1, r2, r3, r4, by rw [e3]; exact r5, by rw [e3]; exact r6,
            by rw [e1]; exact r7, by rw [e2]; exact r8⟩ h0s hsltx hx1.le ?_
        intro y hy
        rcases hinv y hy with h1 | h1
        · exact fun hc => absurd hc.1 (not_lt.mpr h1)
        · rcases List.mem_cons.mp h1 with rfl | h2
          · exact fun hc => absurd hc.2 (lt_irrefl y)
          · exact fun hc => absurd hc.2 (not_lt.mpr (hxall y h2))
      · obtain ⟨f1, f2, f3, f4, f5⟩ := EA
        exact ⟨f1.trans rfl, f2.trans rfl, f3.trans rfl, f4.trans rfl, f5.trans rfl⟩

/-- One first-run segment: the chain it produces admits no further
splits, its head keeps p's identity, its end keeps q's, and inserted
knots are Explicit on both sides. -/
theorem splitSegment_spec (p q : Knot ℝ) (pen : List (Knot ℝ)) :
    chainPairsOK pen (splitSegment p q pen).1 (splitSegment p q pen).2 ∧
    (splitSegment p q pen).1 ≠ [] ∧
    head_agrees p ((splitSegment p q pen).1.headD p) ∧
    end_agrees q (splitSegment p q pen).2 ∧
    (∀ k ∈ (splitSegment p q pen).1.tail,
      k.left_type = kt_explicit ∧ k.right_type = kt_explicit) := by
  set T := (if 1 < (filteredTees p q pen).length then
    sort_tees (filteredTees p q pen) else filteredTees p q pen) with hT
  have hmemT : ∀ y, y ∈ T ↔ y ∈ filteredTees p q pen := by
    rw [hT]
    split_ifs with hl
    · exact fun y => mem_sort_tees _ y
    · exact fun y => Iff.rfl
  have hsorted : T.Sorted (· ≤ ·) := by
    rw [hT]
    split_ifs with hl
    · exact sort_tees_sorted _
    · cases hfl : filteredTees p q pen with
      | nil => simp
      | cons a l2 =>
        cases l2 with
        | nil => simp
        | cons b l3 =>
          rw [hfl] at hl
          simp at hl
  have hbound : ∀ y ∈ T, 0 ≤ y ∧ y < 1 := by
    intro y hy
    have := (mem_filteredTees p q pen y).mp ((hmemT y).mp hy)
    exact ⟨this.2.1.le, this.2.2⟩
  have hinv : ∀ y ∈ filteredTees p q pen, y ≤ 0 ∨ y ∈ T :=
    fun y hy => Or.inr ((hmemT y).mpr hy)
  obtain ⟨CH, HA, EA⟩ := splitWalk_noresplit p q pen T p q 0
    (seg_restricts_full p q) le_rfl (by norm_num) hsorted hbound hinv
  obtain ⟨-, -, -, TL⟩ := splitWalk_spec p q T p q 0 (seg_restricts_full p q)
    (by norm_num) (fun y hy => (hbound y hy).2)
  rw [splitSegment_eq, ← hT]
  exact ⟨CH, splitWalk_ne_nil T p q 0, HA, EA, TL⟩

/-- Some knot of the list carries the Regular right side that stops
the split_at_tees traversal. -/
def hasRegular : List (Knot ℝ) → Prop
  | [] => False
  | q :: rest => q.right_type = kt_regular ∨ hasRegular rest

/-- The split_at_tees traversal over this ring reaches a Regular
right side, and every segment it visits on the way is left untouched
by splitSegment. -/
def walkOK (pen : List (Knot ℝ)) : List (Knot ℝ) → Prop
  | p :: q :: rest => splitSegment p q pen = ([p], q) ∧
      (q.right_type = kt_regular ∨ walkOK pen (q :: rest))
  | _ => False

/-- The closing no-resplit property transfers to the last knot of the
chain. -/
theorem chainPairsOK_last (pen : List (Knot ℝ)) :
    ∀ (ch : List (Knot ℝ)) (qk : Knot ℝ), ch ≠ [] → chainPairsOK pen ch qk →
      ∀ q2, sameSeg qk q2 →
        splitSegment (ch.getLastD default) q2 pen = ([ch.getLastD default], q2) := by
  intro ch
  induction ch with
  | nil => intro qk h; exact absurd rfl h
  | cons c cs ih =>
    intro qk _ hch q2 hq2
    cases cs with
    | nil => exact hch q2 hq2
    | cons c2 cs2 =>
      have h := ih qk (List.cons_ne_nil c2 cs2) hch.2 q2 hq2
      simpa [List.getLastD_cons] using h

/-- On a ring whose visited segments split_at_tees leaves untouched,
satGo returns the ring unchanged. -/
theorem satGo_id (pen : List (Knot ℝ)) :
    ∀ (tail : List (Knot ℝ)) (p hcur : Knot ℝ), walkOK pen (p :: tail) →
      satGo pen p tail hcur = (p :: tail, hcur) := by
  intro tail
  induction tail with
  | nil => intro p hcur h; exact h.elim
  | cons r rest ih =>
    intro p hcur h
    obtain ⟨h1, h2⟩ := h
    by_cases hreg : r.right_type = kt_regular
    · simp only [satGo]
      rw [h1]
      simp [hreg]
    · have hwk := h2.resolve_left hreg
      simp only [satGo]
      rw [h1]
      simp only [if_neg hreg]
      rw [ih r hcur hwk]
      rfl

/-- A second split_at_tees run over a walkOK ring is the identity. -/
theorem run2_id (pen : List (Knot ℝ)) (ks : List (Knot ℝ)) (h : walkOK pen ks) :
    split_at_tees ks pen = ks := by
  rcases ks with _ | ⟨k0, _ | ⟨q, rest⟩⟩
  · exact h.elim
  · exact h.elim
  · obtain ⟨h1, h2⟩ := h
    by_cases hreg : q.right_type = kt_regular
    · simp only [split_at_tees]
      rw [h1]
      simp [hreg]
    · have hwk := h2.resolve_left hreg
      simp only [split_at_tees]
      rw [h1]
      simp only [if_neg hreg]
      rw [satGo_id pen rest q _ hwk]
      simp

/-- Gluing a no-resplit chain onto a continuation that starts at its
last knot preserves walkOK. -/
theorem walkOK_glue (pen : List (Knot ℝ)) :
    ∀ (ch : List (Knot ℝ)) (qk : Knot ℝ) (Z : List (Knot ℝ)),
      ch ≠ [] → chainPairsOK pen ch qk →
      walkOK pen (ch.getLastD default :: Z) →
      walkOK pen (ch ++ Z) := by
  intro ch
  induction ch with
  | nil => intro qk Z h; exact absurd rfl h
  | cons c cs ih =>
    intro qk Z _ hch hlast
    cases cs with
    | nil => simpa using hlast
    | cons c2 cs2 =>
      obtain ⟨h1, h2⟩ := hch
      show walkOK pen (c :: c2 :: (cs2 ++ Z))
      refine ⟨h1, Or.inr ?_⟩
      have : walkOK pen ((c2 :: cs2) ++ Z) :=
        ih qk Z (List.cons_ne_nil c2 cs2) h2 (by simpa using hlast)
      simpa using this

/-- The satGo traversal of a first-run output: every segment it
produced resists a second split, the threaded entry knot comes back
unchanged, and the traversal starting from the last knot of the
previous chain is walkOK. -/
theorem satGo_noresplit (pen : List (Knot ℝ)) :
    ∀ (tail : List (Knot ℝ)) (p hcur prev : Knot ℝ),
      hasRegular tail →
      (∀ q2, sameSeg p q2 → splitSegment prev q2 pen = ([prev], q2)) →
      (satGo pen p tail hcur).2 = hcur ∧
      walkOK pen (prev :: (satGo pen p tail hcur).1) := by
  intro tail
  induction tail with
  | nil => intro p hcur prev h; exact h.elim
  | cons r rest ih =>
    intro p hcur prev hreg hprev
    obtain ⟨CH, hne, HA, EA, TL⟩ := splitSegment_spec p r pen
    obtain ⟨c, cs, hcs⟩ := List.exists_cons_of_ne_nil hne
    have hrt : (splitSegment p r pen).2.right_type = r.right_type := EA.2.2.2.2
    have hpair : splitSegment prev c pen = ([prev], c) := by
      apply hprev c
      rw [hcs] at HA
      simp only [List.headD_cons] at HA
      exact ⟨HA.1, HA.2.1, HA.2.2.1⟩
    by_cases hr : r.right_type = kt_regular
    · have hstop : (splitSegment p r pen).2.right_type = kt_regular := by
        rw [hrt]; exact hr
      simp only [satGo]
      rw [if_pos hstop]
      refine ⟨rfl, ?_⟩
      rw [hcs]
      refine ⟨hpair, Or.inr ?_⟩
      have hglue := walkOK_glue pen (c :: cs) (splitSegment p r pen).2
        ((splitSegment p r pen).2 :: rest) (List.cons_ne_nil c cs)
        (by rw [← hcs]; exact CH) ?_
      · simpa using hglue
      · refine ⟨?_, Or.inl hstop⟩
        have := chainPairsOK_last pen (splitSegment p r pen).1
          (splitSegment p r pen).2 hne CH (splitSegment p r pen).2 ⟨rfl, rfl, rfl⟩
        rw [hcs] at this
        exact this
    · have hnstop : ¬ (splitSegment p r pen).2.right_type = kt_regular := by
        rw [hrt]; exact hr
      have hregrest : hasRegular rest := hreg.resolve_left hr
      have hlastprev := chainPairsOK_last pen (splitSegment p r pen).1
        (splitSegment p r pen).2 hne CH
      obtain ⟨ih2, ihw⟩ := ih (splitSegment p r pen).2 hcur
        ((splitSegment p r pen).1.getLastD default) hregrest hlastprev
      simp only [satGo]
      rw [if_neg hnstop]
      refine ⟨ih2, ?_⟩
      rw [hcs]
      refine ⟨hpair, Or.inr ?_⟩
      have hglue := walkOK_glue pen (c :: cs) (splitSegment p r pen).2
        (satGo pen (splitSegment p r pen).2 rest hcur).1 (List.cons_ne_nil c cs)
        (by rw [← hcs]; exact CH) (by rw [← hcs]; exact ihw)
      simpa using hglue

/-- First run output of split_at_tees is walkOK: a second run leaves
it unchanged. -/
theorem split_at_tees_walkOK (pen : List (Knot ℝ)) (k0 q : Knot ℝ)
    (rest : List (Knot ℝ)) (hreg : hasRegular (q :: rest)) :
    walkOK pen (split_at_tees (k0 :: q :: rest) pen) := by
  obtain ⟨CH, hne, HA, EA, TL⟩ := splitSegment_spec k0 q pen
  obtain ⟨c, cs, hcs⟩ := List.exists_cons_of_ne_nil hne
  have hrt : (splitSegment k0 q pen).2.right_type = q.right_type := EA.2.2.2.2
  by_cases hr : q.right_type = kt_regular
  · have hstop : (splitSegment k0 q pen).2.right_type = kt_regular := by
      rw [hrt]; exact hr
    simp only [split_at_tees]
    rw [if_pos hstop]
    apply walkOK_glue pen (splitSegment k0 q pen).1 (splitSegment k0 q pen).2
      ((splitSegment k0 q pen).2 :: rest) hne CH
    refine ⟨?_, Or.inl hstop⟩
    exact chainPairsOK_last pen (splitSegment k0 q pen).1
      (splitSegment k0 q pen).2 hne CH (splitSegment k0 q pen).2 ⟨rfl, rfl, rfl⟩
  · have hnstop : ¬ (splitSegment k0 q pen).2.right_type = kt_regular := by
      rw [hrt]; exact hr
    have hregrest : hasRegular rest := hreg.resolve_left hr
    have hlastprev := chainPairsOK_last pen (splitSegment k0 q pen).1
      (splitSegment k0 q pen).2 hne CH
    have hhead : (splitSegment k0 q pen).1.headD k0 = c := by rw [hcs]; rfl
    obtain ⟨ih2, ihw⟩ := satGo_noresplit pen rest (splitSegment k0 q pen).2 c
      ((splitSegment k0 q pen).1.getLastD default) hregrest hlastprev
    simp only [split_at_tees]
    rw [if_neg hnstop, hhead, ih2]
    rw [hcs]
    simp only [List.tail_cons]
    show walkOK pen ((c :: cs) ++ (satGo pen (splitSegment k0 q pen).2 rest c).1)
    apply walkOK_glue pen (c :: cs) (splitSegment k0 q pen).2 _
      (List.cons_ne_nil c cs) (by rw [← hcs]; exact CH)
    show walkOK pen ((c :: cs).getLastD default ::
      (satGo pen (splitSegment k0 q pen).2 rest c).1)
    rw [← hcs]
    exact ihw

/-- C8 amended: for every path ring (at least two knots, with a knot
carrying the Regular right boundary reachable before the cyclic
wrap) and every pen, a second run of split_at_tees on the output of a
first run inserts no new knots: the output is returned unchanged.
The claim's mechanism is corrected: candidate tees of a sub-segment
need not land at 0 or 1 - they can also fall outside the closed unit
interval - but none lands strictly inside (0,1), so the filter drops
them all. -/
theorem C8_amended (ks pen : List (Knot ℝ)) (k0 q : Knot ℝ) (rest : List (Knot ℝ))
    (hks : ks = k0 :: q :: rest) (hreg : hasRegular (q :: rest)) :
    split_at_tees (split_at_tees ks pen) pen = split_at_tees ks pen := by
  subst hks
  exact run2_id pen _ (split_at_tees_walkOK pen k0 q rest hreg)

/-- The straight-line counterexample path: one cubic from (0,0) to
(1,0) with the 0.3/0.7 chord controls a lineto writes. -/
noncomputable def c8p : Knot ℝ := ⟨0, 0, ⟨0, 0⟩, ⟨3/10, 0⟩, kt_open, kt_explicit⟩

noncomputable def c8q : Knot ℝ := ⟨1, 0, ⟨7/10, 0⟩, ⟨0, 0⟩, kt_explicit, kt_regular⟩

noncomputable def c8path : List (Knot ℝ) := [c8p, c8q]

theorem s7_bounds : 1/10 < Real.sqrt (7/100) := by
  have h2 : Real.sqrt (7/100) * Real.sqrt (7/100) = 7/100 :=
    Real.mul_self_sqrt (by norm_num)
  nlinarith [Real.sqrt_nonneg ((7:ℝ)/100)]

/-- Vertical pen edge against the line: Bernstein values 3/10, 2/5,
3/10 and the two roots outside the unit interval. -/
theorem c8_edge2 : solve_bezier (3/10) (2/5) (3/10) =
    [(3/10) / (-1/10 - Real.sqrt (7/100)),
     (-1/10 - Real.sqrt (7/100)) / (-1/5)] := by
  have h := solve_quadratic_negb (-1/5) (-1/10) (3/10) (by norm_num) (by norm_num)
    (by norm_num) (by norm_num)
  rw [show ((-1:ℝ)/10 * (-1/10) - (-1/5) * (3/10)) = 7/100 by norm_num] at h
  rw [show solve_bezier (3/10) (2/5) (3/10) = solve_quadratic (-1/5) (-1/10) (3/10) by
    rw [solve_bezier]; norm_num]
  rw [h]

/-- The opposite vertical pen edge: Bernstein values -3/10, -2/5,
-3/10 and the two roots outside the unit interval. -/
theorem c8_edge4 : solve_bezier (-3/10) (-2/5) (-3/10) =
    [(-3/10) / (1/10 + Real.sqrt (7/100)),
     (1/10 + Real.sqrt (7/100)) / (1/5)] := by
  have h := solve_quadratic_posb (1/5) (1/10) (-3/10) (by norm_num) (by norm_num)
    (by norm_num) (by norm_num)
  rw [show ((1:ℝ)/10 * (1/10) - (1/5) * (-3/10)) = 7/100 by norm_num] at h
  rw [show solve_bezier (-3/10) (-2/5) (-3/10) =
      solve_quadratic (1/5) (1/10) (-3/10) by rw [solve_bezier]; norm_num]
  rw [h]

/-- pen_tees of the straight segment against the unit square: the
horizontal edges contribute nothing, the vertical edges push the four
out-of-range roots. -/
theorem c8_pen : pen_tees c8p c8q c7pen =
    [(3/10) / (-1/10 - Real.sqrt (7/100)),
     (-1/10 - Real.sqrt (7/100)) / (-1/5),
     (-3/10) / (1/10 + Real.sqrt (7/100)),
     (1/10 + Real.sqrt (7/100)) / (1/5)] := by
  rw [pen_tees, c7_rot]
  simp only [c7pen, List.zip_cons_cons, List.zip_nil_right, List.foldl_cons,
    List.foldl_nil]
  have A1 : penT0 c8p c8q (c7r2.x - c7r1.x) (c7r2.y - c7r1.y) = 0 := by
    norm_num [penT0, c8p, c8q, c7r1, c7r2]
  have A2 : penT1 c8p c8q (c7r2.x - c7r1.x) (c7r2.y - c7r1.y) = 0 := by
    norm_num [penT1, c8p, c8q, c7r1, c7r2]
  have A3 : penT2 c8p c8q (c7r2.x - c7r1.x) (c7r2.y - c7r1.y) = 0 := by
    norm_num [penT2, c8p, c8q, c7r1, c7r2]
  have B1 : penT0 c8p c8q (c7r3.x - c7r2.x) (c7r3.y - c7r2.y) = 3/10 := by
    norm_num [penT0, c8p, c8q, c7r2, c7r3]
  have B2 : penT1 c8p c8q (c7r3.x - c7r2.x) (c7r3.y - c7r2.y) = 2/5 := by
    norm_num [penT1, c8p, c8q, c7r2, c7r3]
  have B3 : penT2 c8p c8q (c7r3.x - c7r2.x) (c7r3.y - c7r2.y) = 3/10 := by
    norm_num [penT2, c8p, c8q, c7r2, c7r3]
  have C1 : penT0 c8p c8q (c7r4.x - c7r3.x) (c7r4.y - c7r3.y) = 0 := by
    norm_num [penT0, c8p, c8q, c7r3, c7r4]
  have C2 : penT1 c8p c8q (c7r4.x - c7r3.x) (c7r4.y - c7r3.y) = 0 := by
    norm_num [penT1, c8p, c8q, c7r3, c7r4]
  have C3 : penT2 c8p c8q (c7r4.x - c7r3.x) (c7r4.y - c7r3.y) = 0 := by
    norm_num [penT2, c8p, c8q, c7r3, c7r4]
  have D1 : penT0 c8p c8q (c7r1.x - c7r4.x) (c7r1.y - c7r4.y) = -3/10 := by
    norm_num [penT0, c8p, c8q, c7r4, c7r1]
  have D2 : penT1 c8p c8q (c7r1.x - c7r4.x) (c7r1.y - c7r4.y) = -2/5 := by
    norm_num [penT1, c8p, c8q, c7r4, c7r1]
  have D3 : penT2 c8p c8q (c7r1.x - c7r4.x) (c7r1.y - c7r4.y) = -3/10 := by
    norm_num [penT2, c8p, c8q, c7r4, c7r1]
  rw [A1, A2, A3, B1, B2, B3, C1, C2, C3, D1, D2, D3, c8_edge2, c8_edge4,
    solve_bezier_zero]
  simp

/-- inflection_tees of the straight segment: all coefficients vanish,
nothing is pushed. -/
theorem c8_infl : inflection_tees c8p c8q = [] := by
  norm_num [inflection_tees, c8p, c8q, solve_quadratic]

theorem c8_fil : filteredTees c8p c8q c7pen = [] := by
  have hs0 := Real.sqrt_nonneg ((7:ℝ)/100)
  have hs1 := s7_bounds
  have hA : ¬ (0 < (3/10 : ℝ) / (-1/10 - Real.sqrt (7/100))) := by
    rw [not_lt]
    apply le_of_lt
    apply div_neg_of_pos_of_neg (by norm_num)
    nlinarith
  have hB : ¬ (((-1:ℝ)/10 - Real.sqrt (7/100)) / (-1/5) < 1) := by
    rw [not_lt, le_div_iff_of_neg (by norm_num : ((-1:ℝ)/5) < 0)]
    nlinarith
  have hC : ¬ (0 < ((-3:ℝ)/10) / (1/10 + Real.sqrt (7/100))) := by
    rw [not_lt]
    apply le_of_lt
    apply div_neg_of_neg_of_pos (by norm_num)
    nlinarith
  have hD : ¬ (((1:ℝ)/10 + Real.sqrt (7/100)) / (1/5) < 1) := by
    rw [not_lt, le_div_iff (by norm_num : (0:ℝ) < 1/5)]
    nlinarith
  rw [filteredTees, c8_infl, c8_pen]
  simp only [List.nil_append, List.filter_cons, List.filter_nil,
    Bool.and_eq_true, decide_eq_true_eq]
  rw [if_neg (fun hc => hA hc.1), if_neg (fun hc => hB hc.2),
    if_neg (fun hc => hC hc.1), if_neg (fun hc => hD hc.2)]

theorem c8_seg : splitSegment c8p c8q c7pen = ([c8p], c8q) := by
  rw [splitSegment_eq, c8_fil]
  norm_num [splitWalk]

theorem c8_splits : split_at_tees c8path c7pen = c8path := by
  simp only [c8path, split_at_tees]
  rw [c8_seg]
  norm_num [c8q]

/-- C8 counterexample to the claimed mechanism: the straight-line
ring is a fixed point of split_at_tees against the unit square pen
(so it is the result of a run, and a second run inserts nothing), yet
its pen-slope candidate tees include (1/10 + sqrt(7/100))/(1/5),
which is neither 0 nor 1: candidate tees of an already-split segment
land outside the open unit interval, not necessarily at 0 or 1. -/
theorem C8_counterexample :
    split_at_tees c8path c7pen = c8path ∧
    ((1:ℝ)/10 + Real.sqrt (7/100)) / (1/5) ∈ pen_tees c8p c8q c7pen ∧
    ((1:ℝ)/10 + Real.sqrt (7/100)) / (1/5) ≠ 0 ∧
    ((1:ℝ)/10 + Real.sqrt (7/100)) / (1/5) ≠ 1 := by
  have hs0 := Real.sqrt_nonneg ((7:ℝ)/100)
  have hs1 := s7_bounds
  have hgt : (1:ℝ) < ((1:ℝ)/10 + Real.sqrt (7/100)) / (1/5) := by
    rw [lt_div_iff (by norm_num : (0:ℝ) < 1/5)]
    nlinarith
  refine ⟨c8_splits, ?_, ?_, ?_⟩
  · rw [c8_pen]
    simp
  · intro h
    rw [h] at hgt
    norm_num at hgt
  · intro h
    rw [h] at hgt
    exact absurd hgt (lt_irrefl 1)

/-- C8 witness: the amended idempotence applied to the straight-line
ring and the unit square pen. -/
theorem C8_witness :
    split_at_tees (split_at_tees c8path c7pen) c7pen = split_at_tees c8path c7pen :=
  C8_amended c8path c7pen c8p c8q [] rfl (Or.inl rfl)

end Rendering
